import Mathlib

/-!
Shallow embedding of the peer-to-peer networking core of the repository:
the partial-encoded-chunk cache (`chain/chunks/src/chunk_cache.rs`) and the
per-connection peer state machine (`chain/network/src/peer/peer_actor.rs`).

Rust `HashMap`s are modelled as association lists (`List (κ × β)`), with
insertion consing a fresh key, update mapping over the list and removal
filtering; Rust `HashSet`s are modelled as duplicate-free lists.  Machine
integers (`u64`, `usize`) are modelled as `Nat`; Rust `saturating_sub` is
Nat subtraction, which saturates at zero.
-/

/-- Lookup in an association list (model of `HashMap::get`). -/
def alookup {α β : Type} [DecidableEq α] : List (α × β) → α → Option β
  | [], _ => none
  | p :: l, k => if p.1 = k then some p.2 else alookup l k

/-- Replace the value stored at a key (model of mutation through `get_mut`).
Pairs with other keys are untouched; if the key is absent nothing changes. -/
def aupdate {α β : Type} [DecidableEq α] (l : List (α × β)) (k : α) (v : β) :
    List (α × β) :=
  l.map (fun p => if p.1 = k then (k, v) else p)

/-- Remove a key (model of `HashMap::remove`). -/
def aremove {α β : Type} [DecidableEq α] (l : List (α × β)) (k : α) :
    List (α × β) :=
  l.filter (fun p => p.1 ≠ k)

/-- Insert-or-overwrite (model of `HashMap::insert`). -/
def ainsert {α β : Type} [DecidableEq α] (l : List (α × β)) (k : α) (v : β) :
    List (α × β) :=
  match alookup l k with
  | some _ => aupdate l k v
  | none => (k, v) :: l

/-- Insert into a set (model of `HashSet::insert`). -/
def sinsert (s : List Nat) (x : Nat) : List Nat :=
  if x ∈ s then s else x :: s

/-- Remove from a set (model of `HashSet::remove`). -/
def sremove (s : List Nat) (x : Nat) : List Nat :=
  s.filter (fun y => y ≠ x)

/-- Insert a value into the set bucket stored at a key, creating the bucket
when absent (model of `map.entry(k).or_default().insert(x)`). -/
def bucketInsert (m : List (Nat × List Nat)) (k x : Nat) :
    List (Nat × List Nat) :=
  match alookup m k with
  | some s => aupdate m k (sinsert s x)
  | none => (k, [x]) :: m

/-! ## Data model of the chunk cache (`chunk_cache.rs`) -/

/-- `ShardChunkHeader` as far as the cache consults it: its chunk hash
(`chunk_hash()`), creation height (`height_created()`), previous block hash
(`prev_block_hash()`) and shard id (`shard_id()`).  Hashes and ids are
abstracted as `Nat`. -/
structure ShardChunkHeader where
  chunk_hash : Nat
  height_created : Nat
  prev_block_hash : Nat
  shard_id : Nat
deriving DecidableEq, Repr

/-- `PartialEncodedChunkPart`: a part ord plus opaque part data. -/
structure PartialEncodedChunkPart where
  part_ord : Nat
  part_data : Nat
deriving DecidableEq, Repr

/-- `ReceiptProof`: the destination shard id plus opaque proof data. -/
structure ReceiptProof where
  to_shard_id : Nat
  receipt_data : Nat
deriving DecidableEq, Repr

/-- `PartialEncodedChunkV2`: a header plus the parts and receipts carried. -/
structure PartialEncodedChunkV2 where
  header : ShardChunkHeader
  parts : List PartialEncodedChunkPart
  receipts : List ReceiptProof
deriving DecidableEq, Repr

/-- `EncodedChunksCacheEntry` from `chunk_cache.rs`. -/
structure EncodedChunksCacheEntry where
  header : ShardChunkHeader
  parts : List (Nat × PartialEncodedChunkPart)
  receipts : List (Nat × ReceiptProof)
  complete : Bool
  header_fully_validated : Bool
deriving DecidableEq, Repr

/-- `EncodedChunksCache` from `chunk_cache.rs`.  The
`block_hash_to_chunk_headers` buckets map a shard id to
`(header, arrival time, producer)`, the `chrono` timestamp and `AccountId`
abstracted as `Nat`. -/
structure EncodedChunksCache where
  largest_seen_height : Nat
  encoded_chunks : List (Nat × EncodedChunksCacheEntry)
  height_map : List (Nat × List Nat)
  incomplete_chunks : List (Nat × List Nat)
  block_hash_to_chunk_headers :
    List (Nat × List (Nat × (ShardChunkHeader × Nat × Nat)))
deriving DecidableEq, Repr

/-- `HEIGHT_HORIZON` from `chunk_cache.rs`. -/
def HEIGHT_HORIZON : Nat := 1024

/-- `MAX_HEIGHTS_AHEAD` from `chunk_cache.rs`. -/
def MAX_HEIGHTS_AHEAD : Nat := 5

/-- `CHUNK_HEADER_HEIGHT_HORIZON` from `chunk_cache.rs`. -/
def CHUNK_HEADER_HEIGHT_HORIZON : Nat := 10

/-- `EncodedChunksCacheEntry::from_chunk_header`. -/
def EncodedChunksCacheEntry.from_chunk_header (header : ShardChunkHeader) :
    EncodedChunksCacheEntry :=
  { header := header
    parts := []
    receipts := []
    complete := false
    header_fully_validated := false }

/-- The parts loop of `EncodedChunksCacheEntry::merge_in_partial_encoded_chunk`:
`self.parts.entry(part_ord).or_insert_with(..)` for each carried part, in
order, collecting the ords that were previously unknown. -/
def mergeParts (ps : List (Nat × PartialEncodedChunkPart)) :
    List PartialEncodedChunkPart → List (Nat × PartialEncodedChunkPart) × List Nat
  | [] => (ps, [])
  | p :: rest =>
    match alookup ps p.part_ord with
    | some _ => mergeParts ps rest
    | none =>
      let r := mergeParts ((p.part_ord, p) :: ps) rest
      (r.1, p.part_ord :: r.2)

/-- The receipts loop of
`EncodedChunksCacheEntry::merge_in_partial_encoded_chunk`:
`self.receipts.entry(to_shard_id).or_insert_with(..)` for each receipt. -/
def mergeReceipts (rs : List (Nat × ReceiptProof)) :
    List ReceiptProof → List (Nat × ReceiptProof)
  | [] => rs
  | r :: rest =>
    match alookup rs r.to_shard_id with
    | some _ => mergeReceipts rs rest
    | none => mergeReceipts ((r.to_shard_id, r) :: rs) rest

/-- `EncodedChunksCacheEntry::merge_in_partial_encoded_chunk`: insert the
previously unknown parts and receipts (first writer wins), returning the
part ords that were previously unknown. -/
def EncodedChunksCacheEntry.merge_in_partial_encoded_chunk
    (e : EncodedChunksCacheEntry) (pc : PartialEncodedChunkV2) :
    EncodedChunksCacheEntry × List Nat :=
  let r := mergeParts e.parts pc.parts
  ({ e with parts := r.1, receipts := mergeReceipts e.receipts pc.receipts },
   r.2)

/-- `EncodedChunksCache::new`. -/
def EncodedChunksCache.new : EncodedChunksCache :=
  { largest_seen_height := 0
    encoded_chunks := []
    height_map := []
    incomplete_chunks := []
    block_hash_to_chunk_headers := [] }

/-- `EncodedChunksCache::get`. -/
def EncodedChunksCache.get (c : EncodedChunksCache) (chunk_hash : Nat) :
    Option EncodedChunksCacheEntry :=
  alookup c.encoded_chunks chunk_hash

/-- `EncodedChunksCache::remove_chunk_from_incomplete_chunks`: drop the chunk
hash from the bucket of `prev_block_hash`, removing the bucket when it
becomes empty. -/
def EncodedChunksCache.remove_chunk_from_incomplete_chunks
    (c : EncodedChunksCache) (prev_block_hash chunk_hash : Nat) :
    EncodedChunksCache :=
  match alookup c.incomplete_chunks prev_block_hash with
  | none => c
  | some s =>
    let s2 := sremove s chunk_hash
    if s2 = [] then
      { c with incomplete_chunks := aremove c.incomplete_chunks prev_block_hash }
    else
      { c with incomplete_chunks := aupdate c.incomplete_chunks prev_block_hash s2 }

/-- `EncodedChunksCache::mark_entry_complete`: set `complete` and remove the
chunk from the incomplete bucket of its previous block hash; warn-and-ignore
when the entry does not exist. -/
def EncodedChunksCache.mark_entry_complete (c : EncodedChunksCache)
    (chunk_hash : Nat) : EncodedChunksCache :=
  match alookup c.encoded_chunks chunk_hash with
  | some e =>
    let c2 := { c with
      encoded_chunks := aupdate c.encoded_chunks chunk_hash { e with complete := true } }
    c2.remove_chunk_from_incomplete_chunks e.header.prev_block_hash chunk_hash
  | none => c

/-- `EncodedChunksCache::mark_entry_validated`. -/
def EncodedChunksCache.mark_entry_validated (c : EncodedChunksCache)
    (chunk_hash : Nat) : EncodedChunksCache :=
  match alookup c.encoded_chunks chunk_hash with
  | some e =>
    { c with
      encoded_chunks :=
        aupdate c.encoded_chunks chunk_hash { e with header_fully_validated := true } }
  | none => c

/-- `EncodedChunksCache::get_incomplete_chunks`. -/
def EncodedChunksCache.get_incomplete_chunks (c : EncodedChunksCache)
    (prev_block_hash : Nat) : Option (List Nat) :=
  alookup c.incomplete_chunks prev_block_hash

/-- `EncodedChunksCache::remove`: delete the entry and drop the chunk hash
from the incomplete bucket of its previous block hash, returning the removed
entry.  The `height_map` is deliberately not touched (see the source). -/
def EncodedChunksCache.remove (c : EncodedChunksCache) (chunk_hash : Nat) :
    EncodedChunksCache × Option EncodedChunksCacheEntry :=
  match alookup c.encoded_chunks chunk_hash with
  | some e =>
    let c2 := { c with encoded_chunks := aremove c.encoded_chunks chunk_hash }
    (c2.remove_chunk_from_incomplete_chunks e.header.prev_block_hash chunk_hash,
     some e)
  | none => (c, none)

/-- `EncodedChunksCache::get_or_insert_from_header`: create an empty entry
for the header when absent, indexing it by creation height and by previous
block hash. -/
def EncodedChunksCache.get_or_insert_from_header (c : EncodedChunksCache)
    (header : ShardChunkHeader) : EncodedChunksCache :=
  match alookup c.encoded_chunks header.chunk_hash with
  | some _ => c
  | none =>
    { c with
      encoded_chunks :=
        (header.chunk_hash, EncodedChunksCacheEntry.from_chunk_header header) ::
          c.encoded_chunks
      height_map := bucketInsert c.height_map header.height_created header.chunk_hash
      incomplete_chunks :=
        bucketInsert c.incomplete_chunks header.prev_block_hash header.chunk_hash }

/-- `EncodedChunksCache::height_within_front_horizon`. -/
def EncodedChunksCache.height_within_front_horizon (c : EncodedChunksCache)
    (height : Nat) : Bool :=
  height ≥ c.largest_seen_height ∧ height ≤ c.largest_seen_height + MAX_HEIGHTS_AHEAD

/-- `EncodedChunksCache::height_within_rear_horizon`. -/
def EncodedChunksCache.height_within_rear_horizon (c : EncodedChunksCache)
    (height : Nat) : Bool :=
  height + HEIGHT_HORIZON ≥ c.largest_seen_height ∧ height ≤ c.largest_seen_height

/-- `EncodedChunksCache::height_within_horizon`. -/
def EncodedChunksCache.height_within_horizon (c : EncodedChunksCache)
    (height : Nat) : Bool :=
  c.height_within_front_horizon height || c.height_within_rear_horizon height

/-- `EncodedChunksCache::merge_in_partial_encoded_chunk`: get-or-insert the
entry for the carried header, then merge the parts and receipts into it,
returning the previously unknown part ords. -/
def EncodedChunksCache.merge_in_partial_encoded_chunk (c : EncodedChunksCache)
    (pc : PartialEncodedChunkV2) : EncodedChunksCache × List Nat :=
  let c2 := c.get_or_insert_from_header pc.header
  match alookup c2.encoded_chunks pc.header.chunk_hash with
  | some e =>
    let r := e.merge_in_partial_encoded_chunk pc
    ({ c2 with encoded_chunks := aupdate c2.encoded_chunks pc.header.chunk_hash r.1 },
     r.2)
  | none => (c2, [])

/-- `EncodedChunksCache::remove_from_cache_if_outside_horizon`. -/
def EncodedChunksCache.remove_from_cache_if_outside_horizon
    (c : EncodedChunksCache) (chunk_hash : Nat) : EncodedChunksCache :=
  match alookup c.encoded_chunks chunk_hash with
  | some e =>
    if c.height_within_horizon e.header.height_created then c
    else (c.remove chunk_hash).1
  | none => c

/-- `EncodedChunksCache::remove_chunk_header`: drop the ready chunk header
recorded under the header's previous block hash and shard id, provided it is
the header of this very chunk; remove the bucket when it becomes empty. -/
def EncodedChunksCache.remove_chunk_header (c : EncodedChunksCache)
    (header : ShardChunkHeader) : EncodedChunksCache :=
  match alookup c.block_hash_to_chunk_headers header.prev_block_hash with
  | none => c
  | some m =>
    match alookup m header.shard_id with
    | none => c
    | some h =>
      if h.1.chunk_hash = header.chunk_hash then
        let m2 := aremove m header.shard_id
        if m2 = [] then
          { c with
            block_hash_to_chunk_headers :=
              aremove c.block_hash_to_chunk_headers header.prev_block_hash }
        else
          { c with
            block_hash_to_chunk_headers :=
              aupdate c.block_hash_to_chunk_headers header.prev_block_hash m2 }
      else c

/-- The body of the inner loop of
`EncodedChunksCache::update_largest_seen_height`: remove every chunk of the
given list that is not pinned by `requested_chunks`, dropping its ready
header as well. -/
def sweepChunks : EncodedChunksCache → List Nat → List Nat → EncodedChunksCache
  | c, [], _ => c
  | c, ch :: rest, requested =>
    if ch ∈ requested then sweepChunks c rest requested
    else
      match c.remove ch with
      | (c2, some e) => sweepChunks (c2.remove_chunk_header e.header) rest requested
      | (c2, none) => sweepChunks c2 rest requested

/-- One iteration of the outer loop of
`EncodedChunksCache::update_largest_seen_height`: take the height's bucket
out of `height_map` and sweep its chunks. -/
def sweepHeight (c : EncodedChunksCache) (height : Nat) (requested : List Nat) :
    EncodedChunksCache :=
  match alookup c.height_map height with
  | none => c
  | some chunks =>
    sweepChunks { c with height_map := aremove c.height_map height } chunks requested

/-- The outer loop of `EncodedChunksCache::update_largest_seen_height` over a
list of heights. -/
def sweepHeights : EncodedChunksCache → List Nat → List Nat → EncodedChunksCache
  | c, [], _ => c
  | c, h :: hs, requested => sweepHeights (sweepHeight c h requested) hs requested

/-- `EncodedChunksCache::update_largest_seen_height`: advance
`largest_seen_height` and sweep every height in
`[old_height.saturating_sub(1024), new_height.saturating_sub(1024))`.
`requested_chunks` is modelled by its key set. -/
def EncodedChunksCache.update_largest_seen_height (c : EncodedChunksCache)
    (new_height : Nat) (requested : List Nat) : EncodedChunksCache :=
  let old := c.largest_seen_height
  let c2 := { c with largest_seen_height := new_height }
  sweepHeights c2
    (List.range' (old - HEIGHT_HORIZON)
      ((new_height - HEIGHT_HORIZON) - (old - HEIGHT_HORIZON)))
    requested

/-- `EncodedChunksCache::insert_chunk_header`: record a ready chunk header,
gated by the tighter horizon
`[largest_seen_height - CHUNK_HEADER_HEIGHT_HORIZON, largest_seen_height + MAX_HEIGHTS_AHEAD]`.
`now` models the `chrono::Utc::now()` arrival timestamp. -/
def EncodedChunksCache.insert_chunk_header (c : EncodedChunksCache)
    (shard_id : Nat) (header : ShardChunkHeader) (chunk_producer : Nat)
    (now : Nat) : EncodedChunksCache :=
  let height := header.height_created
  if height ≥ c.largest_seen_height - CHUNK_HEADER_HEIGHT_HORIZON ∧
      height ≤ c.largest_seen_height + MAX_HEIGHTS_AHEAD then
    let prev := header.prev_block_hash
    match alookup c.block_hash_to_chunk_headers prev with
    | some m =>
      { c with
        block_hash_to_chunk_headers :=
          aupdate c.block_hash_to_chunk_headers prev
            (ainsert m shard_id (header, now, chunk_producer)) }
    | none =>
      { c with
        block_hash_to_chunk_headers :=
          (prev, [(shard_id, (header, now, chunk_producer))]) ::
            c.block_hash_to_chunk_headers }
  else c

/-- `EncodedChunksCache::get_chunk_headers_for_block`. -/
def EncodedChunksCache.get_chunk_headers_for_block (c : EncodedChunksCache)
    (prev_block_hash : Nat) : List (Nat × (ShardChunkHeader × Nat × Nat)) :=
  match alookup c.block_hash_to_chunk_headers prev_block_hash with
  | some m => m
  | none => []

/-- The public operations of `EncodedChunksCache`, for stating reachability
invariants. -/
inductive CacheOp
  | merge (pc : PartialEncodedChunkV2)
  | markComplete (chunk_hash : Nat)
  | markValidated (chunk_hash : Nat)
  | removeChunk (chunk_hash : Nat)
  | updateHeight (new_height : Nat) (requested : List Nat)
  | insertHeader (shard_id : Nat) (header : ShardChunkHeader)
      (chunk_producer now : Nat)
deriving Repr

/-- Apply one public cache operation. -/
def applyOp (c : EncodedChunksCache) : CacheOp → EncodedChunksCache
  | .merge pc => (c.merge_in_partial_encoded_chunk pc).1
  | .markComplete ch => c.mark_entry_complete ch
  | .markValidated ch => c.mark_entry_validated ch
  | .removeChunk ch => (c.remove ch).1
  | .updateHeight nh req => c.update_largest_seen_height nh req
  | .insertHeader sid hd prod now => c.insert_chunk_header sid hd prod now

/-- Apply a sequence of public cache operations. -/
def applyOps (c : EncodedChunksCache) : List CacheOp → EncodedChunksCache
  | [] => c
  | op :: ops => applyOps (applyOp c op) ops

/-! ## Data model of the peer state machine (`peer_actor.rs`) -/

/-- Wire encodings supported by the codec. -/
inductive Encoding
  | proto
  | borsh
deriving DecidableEq, Repr

/-- Connection tiers. -/
inductive Tier
  | t1
  | t2
deriving DecidableEq, Repr

/-- Direction of the connection. -/
inductive PeerType
  | inbound
  | outbound
deriving DecidableEq, Repr

/-- Routed message bodies, as far as the frame handler inspects them: the
`ForwardTx` variant is distinguished, everything else is opaque. -/
inductive RoutedMessageBody
  | forwardTx (tx : Nat)
  | otherBody (x : Nat)
deriving DecidableEq, Repr

/-- A routed message: author, target and signature (the dedup key fields)
plus the body.  Peer ids, targets and signatures are abstracted as `Nat`. -/
structure RoutedMessage where
  author : Nat
  target : Nat
  signature : Nat
  body : RoutedMessageBody
deriving DecidableEq, Repr

/-- `HandshakeFailureReason`. -/
inductive HandshakeFailureReason
  | genesisMismatch (genesis : Nat)
  | protocolVersionMismatch (version oldest_supported_version : Nat)
  | invalidTarget
deriving DecidableEq, Repr

/-- `PeerMessage`, restricted to the variants the frame handler treats
specially; all remaining variants are collapsed into `otherMsg`. -/
inductive PeerMessage
  | routed (m : RoutedMessage)
  | block (block_hash : Nat)
  | blockRequest (block_hash : Nat)
  | handshakeFailure (peer_info : Nat) (reason : HandshakeFailureReason)
  | lastEdge (edge : Nat)
  | disconnect
  | tier1Handshake (h : Nat)
  | tier2Handshake (h : Nat)
  | otherMsg (x : Nat)
deriving DecidableEq, Repr

/-- `PeerStatus`: `Connecting` (the permit is irrelevant to the claims),
`Ready` (retaining the connection tier) or `Banned`. -/
inductive PeerStatus
  | connecting
  | ready (tier : Tier)
  | banned (reason : Nat)
deriving DecidableEq, Repr

/-- `ROUTED_MESSAGE_CACHE_SIZE` from `peer_actor.rs`. -/
def ROUTED_MESSAGE_CACHE_SIZE : Nat := 1000

/-- `DROP_DUPLICATED_MESSAGES_PERIOD` from `peer_actor.rs`, in milliseconds. -/
def DROP_DUPLICATED_MESSAGES_PERIOD : Nat := 50

/-- `MAX_TRANSACTIONS_PER_BLOCK_MESSAGE` from `peer_actor.rs`. -/
def MAX_TRANSACTIONS_PER_BLOCK_MESSAGE : Nat := 1000

/-- `NETWORK_MESSAGE_MAX_SIZE_BYTES` from `peer_actor.rs` (512 MiB). -/
def NETWORK_MESSAGE_MAX_SIZE_BYTES : Nat := 512 * 1048576

/-- The dedup key of a routed message: `(author, target, signature)`. -/
def RoutedMessage.key (m : RoutedMessage) : Nat × Nat × Nat :=
  (m.author, m.target, m.signature)

/-- `lru::LruCache::get`: return the stored value and promote the key to
most-recently-used.  The cache is a most-recent-first list. -/
def lruGet (cache : List ((Nat × Nat × Nat) × Nat)) (k : Nat × Nat × Nat) :
    List ((Nat × Nat × Nat) × Nat) × Option Nat :=
  match alookup cache k with
  | some v => ((k, v) :: cache.filter (fun p => p.1 ≠ k), some v)
  | none => (cache, none)

/-- `lru::LruCache::put`: insert or overwrite at the front, evicting the
least-recently-used entries beyond the capacity. -/
def lruPut (cache : List ((Nat × Nat × Nat) × Nat)) (k : Nat × Nat × Nat)
    (v : Nat) (cap : Nat) : List ((Nat × Nat × Nat) × Nat) :=
  ((k, v) :: cache.filter (fun p => p.1 ≠ k)).take cap

/-- The fields of `PeerActor` that the claims touch.  The clock, streams,
trackers and metrics are left out; `handshake_spec_version` is the
`protocol_version` field of the outbound `HandshakeSpec` (`None` for inbound
actors, as in the source); `txns_since_last_block` is the process-wide
transaction counter read and written by this actor. -/
structure PeerActorState where
  force_encoding : Option Encoding
  protocol_buffers_supported : Bool
  peer_status : PeerStatus
  peer_type : PeerType
  handshake_spec_version : Option Nat
  routed_message_cache : List ((Nat × Nat × Nat) × Nat)
  txns_since_last_block : Nat
deriving DecidableEq, Repr

/-- Constants and externals the handler consults: the node's
`PROTOCOL_VERSION` and `PEER_MIN_ALLOWED_PROTOCOL_VERSION` (defined in
`near_primitives::version`, outside the staged sources) and the tier
allow-list `Tier::is_allowed` (defined in the `connection` module, outside
the staged sources). -/
structure NetCtx where
  protocol_version : Nat
  peer_min_allowed_protocol_version : Nat
  is_allowed : Tier → PeerMessage → Bool

/-- A received frame, modelled by what `PeerMessage::deserialize` yields on
its bytes under each encoding (`none` = decode error). -/
structure Frame where
  asProto : Option PeerMessage
  asBorsh : Option PeerMessage
deriving DecidableEq, Repr

/-- `PeerMessage::deserialize` on a frame under a chosen encoding. -/
def Frame.deserialize (f : Frame) : Encoding → Option PeerMessage
  | .proto => f.asProto
  | .borsh => f.asBorsh

/-- `PeerActor::encoding`: forced encoding first; then latched protobuf
support; otherwise undetermined while connecting and Borsh afterwards. -/
def PeerActorState.encoding (s : PeerActorState) : Option Encoding :=
  match s.force_encoding with
  | some e => some e
  | none =>
    if s.protocol_buffers_supported then some .proto
    else
      match s.peer_status with
      | .connecting => none
      | _ => some .borsh

/-- `PeerActor::parse_message`: under an established encoding, decode with
it; otherwise try Proto first (latching `protocol_buffers_supported` on
success) and fall back to Borsh. -/
def parse_message (s : PeerActorState) (f : Frame) :
    PeerActorState × Option PeerMessage :=
  match s.encoding with
  | some e => (s, f.deserialize e)
  | none =>
    match f.asProto with
    | some m => ({ s with protocol_buffers_supported := true }, some m)
    | none => (s, f.asBorsh)

/-- The encodings under which `PeerActor::send_message` emits one message:
the established encoding when known, otherwise both. -/
def send_encodings (s : PeerActorState) : List Encoding :=
  match s.encoding with
  | some e => [e]
  | none => [.proto, .borsh]

/-- Outcome of `PeerActor::send_message_with_encoding`. -/
inductive SendOutcome
  | panicked
  | skippedBlockSend
  | droppedTooLarge
  | sent (enc : Encoding)
deriving DecidableEq, Repr

/-- Externals of the send path: the tier allow-list, the tracker's
`has_received` view of block hashes and the serialized size of a message
under an encoding. -/
structure SendCtx where
  is_allowed : Tier → PeerMessage → Bool
  tracker_has_received : Nat → Bool
  serialized_size : PeerMessage → Encoding → Nat

/-- The part of `PeerActor::send_message_with_encoding` after the tier
check: skip a block the peer already delivered to us, drop oversized
serializations, otherwise hand the frame to the framed writer. -/
def send_after_tier_check (ctx : SendCtx) (msg : PeerMessage) (enc : Encoding) :
    SendOutcome :=
  match msg with
  | .block b =>
    if ctx.tracker_has_received b then .skippedBlockSend
    else if ctx.serialized_size msg enc > NETWORK_MESSAGE_MAX_SIZE_BYTES then
      .droppedTooLarge
    else .sent enc
  | _ =>
    if ctx.serialized_size msg enc > NETWORK_MESSAGE_MAX_SIZE_BYTES then
      .droppedTooLarge
    else .sent enc

/-- `PeerActor::send_message_with_encoding`: on a `Ready` connection a
message variant not allowed on the connection's tier panics; otherwise the
message proceeds to the block-skip and size checks. -/
def send_message_with_encoding (ctx : SendCtx) (s : PeerActorState)
    (msg : PeerMessage) (enc : Encoding) : SendOutcome :=
  match s.peer_status with
  | .ready tier =>
    if ctx.is_allowed tier msg then send_after_tier_check ctx msg enc
    else .panicked
  | _ => send_after_tier_check ctx msg enc

/-- Outcome of handling one inbound frame
(`actix::Handler<stream::Frame>::handle`). -/
inductive FrameOutcome
  /-- `parse_message` failed: the frame is logged at debug severity and
  ignored. -/
  | parseError
  /-- A routed message dropped by the `(author, target, signature)` dedup
  cache. -/
  | dedupDrop
  /-- A `Routed(ForwardTx)` dropped because `txns_since_last_block`
  exceeded `MAX_TRANSACTIONS_PER_BLOCK_MESSAGE`. -/
  | txOverloadDrop
  /-- `ctx.stop()` was called: the connection is being closed. -/
  | stopped
  /-- The outbound actor re-sent its handshake with this protocol version. -/
  | sentHandshake (version : Nat)
  /-- An `unwrap()` on a missing outbound handshake spec. -/
  | panicked
  /-- A non-handshake message received while connecting: warned and
  ignored. -/
  | connectingIgnored (m : PeerMessage)
  /-- `LastEdge` or a `Tier1/Tier2` handshake received while connecting:
  handled by logic (`process_handshake` and the `LastEdge` arm) outside the
  scope of the claims, modelled opaquely. -/
  | connectingOther (m : PeerMessage)
  /-- A message variant not allowed on the connection's tier: warned and
  `ctx.stop()`. -/
  | tierViolationStop (m : PeerMessage)
  /-- A duplicate handshake on a ready connection: logged and ignored. -/
  | readyIgnored (m : PeerMessage)
  /-- The message reached the body of `handle_msg_ready` and is dispatched
  there. -/
  | dispatched (m : PeerMessage)
  /-- A message received while `Banned`: warned and ignored. -/
  | statusIgnored (m : PeerMessage)
deriving DecidableEq, Repr

/-- Whether an outcome closes the connection (`ctx.stop()` reached). -/
def FrameOutcome.closesConnection : FrameOutcome → Bool
  | .stopped => true
  | .tierViolationStop _ => true
  | _ => false

/-- `PeerActor::handle_msg_connecting`.  The `HandshakeFailure` arm is
modelled in full; the `LastEdge` and `Tier1/Tier2Handshake` arms (whose
behavior no claim concerns) return the opaque outcome `connectingOther`. -/
def handle_msg_connecting (ctx : NetCtx) (s : PeerActorState)
    (m : PeerMessage) : PeerActorState × FrameOutcome :=
  match m with
  | .handshakeFailure _ reason =>
    if s.peer_type = .inbound then (s, .stopped)
    else
      match reason with
      | .genesisMismatch _ => (s, .stopped)
      | .protocolVersionMismatch version oldest_supported_version =>
        let common_version := min version ctx.protocol_version
        if common_version < oldest_supported_version ∨
            common_version < ctx.peer_min_allowed_protocol_version then
          (s, .stopped)
        else
          match s.handshake_spec_version with
          | none => (s, .panicked)
          | some _ =>
            ({ s with handshake_spec_version := some common_version },
             .sentHandshake common_version)
      | .invalidTarget => (s, .stopped)
  | .lastEdge _ => (s, .connectingOther m)
  | .tier1Handshake _ => (s, .connectingOther m)
  | .tier2Handshake _ => (s, .connectingOther m)
  | _ => (s, .connectingIgnored m)

/-- `PeerActor::handle_msg_ready`, at the granularity the claims need:
`Disconnect` stops the actor, a duplicate handshake is ignored, and every
other message is dispatched by variant. -/
def handle_msg_ready (s : PeerActorState) (m : PeerMessage) :
    PeerActorState × FrameOutcome :=
  match m with
  | .disconnect => (s, .stopped)
  | .tier1Handshake _ => (s, .readyIgnored m)
  | .tier2Handshake _ => (s, .readyIgnored m)
  | _ => (s, .dispatched m)

/-- The status dispatch at the end of `actix::Handler<stream::Frame>::handle`:
connecting messages go to `handle_msg_connecting`; on a ready connection the
tier allow-list is enforced (disallowed variant stops the actor) before
`handle_msg_ready`; any other status ignores the message. -/
def dispatchStage (ctx : NetCtx) (s : PeerActorState) (m : PeerMessage) :
    PeerActorState × FrameOutcome :=
  match s.peer_status with
  | .connecting => handle_msg_connecting ctx s m
  | .ready tier =>
    if ctx.is_allowed tier m then handle_msg_ready s m
    else (s, .tierViolationStop m)
  | .banned _ => (s, .statusIgnored m)

/-- The routed-message preprocessing after the dedup check has passed: a
`ForwardTx` consults `txns_since_last_block` (dropped above the limit,
counted otherwise), then the arrival time is recorded in the dedup cache and
the message proceeds to the status dispatch. -/
def routedPreprocess (ctx : NetCtx) (s : PeerActorState) (rm : RoutedMessage)
    (now : Nat) : PeerActorState × FrameOutcome :=
  match rm.body with
  | .forwardTx _ =>
    if s.txns_since_last_block > MAX_TRANSACTIONS_PER_BLOCK_MESSAGE then
      (s, .txOverloadDrop)
    else
      let s2 := { s with txns_since_last_block := s.txns_since_last_block + 1 }
      dispatchStage ctx
        { s2 with
          routed_message_cache :=
            lruPut s2.routed_message_cache rm.key now ROUTED_MESSAGE_CACHE_SIZE }
        (.routed rm)
  | _ =>
    dispatchStage ctx
      { s with
        routed_message_cache :=
          lruPut s.routed_message_cache rm.key now ROUTED_MESSAGE_CACHE_SIZE }
      (.routed rm)

/-- `actix::Handler<stream::Frame>::handle`: parse the frame (a decode error
is logged at debug severity and the frame ignored), dedup routed messages by
`(author, target, signature)` within `DROP_DUPLICATED_MESSAGES_PERIOD`,
rate-limit `Routed(ForwardTx)` by `txns_since_last_block`, reset that
counter on `Block`, then dispatch by status.  `now` is the clock reading in
milliseconds. -/
def handleFrame (ctx : NetCtx) (s : PeerActorState) (f : Frame) (now : Nat) :
    PeerActorState × FrameOutcome :=
  match parse_message s f with
  | (s1, none) => (s1, .parseError)
  | (s1, some (.routed rm)) =>
    let r := lruGet s1.routed_message_cache rm.key
    let s2 := { s1 with routed_message_cache := r.1 }
    match r.2 with
    | some t =>
      if now ≤ t + DROP_DUPLICATED_MESSAGES_PERIOD then (s2, .dedupDrop)
      else routedPreprocess ctx s2 rm now
    | none => routedPreprocess ctx s2 rm now
  | (s1, some (.block b)) =>
    dispatchStage ctx { s1 with txns_since_last_block := 0 } (.block b)
  | (s1, some m) => dispatchStage ctx s1 m

/-! ## Association-list lemmas -/

theorem alookup_nil {α β : Type} [DecidableEq α] (k : α) :
    alookup ([] : List (α × β)) k = none := rfl

theorem alookup_cons {α β : Type} [DecidableEq α] (p : α × β)
    (l : List (α × β)) (k : α) :
    alookup (p :: l) k = if p.1 = k then some p.2 else alookup l k := rfl

theorem alookup_eq_none_iff {α β : Type} [DecidableEq α]
    {l : List (α × β)} {k : α} :
    alookup l k = none ↔ ∀ v, (k, v) ∉ l := by
  induction l with
  | nil => simp [alookup]
  | cons p rest ih =>
    obtain ⟨a, b⟩ := p
    by_cases h : a = k
    · subst h
      simp only [alookup, if_pos rfl]
      constructor
      · intro hc; simp at hc
      · intro hall
        exact absurd (List.mem_cons_self (a, b) rest) (hall b)
    · simp only [alookup, if_neg h, ih]
      constructor
      · intro hall v hv
        rcases List.mem_cons.mp hv with h1 | h2
        · injection h1 with hx hy
          exact absurd hx.symm h
        · exact hall v h2
      · intro hall v hv
        exact hall v (List.mem_cons_of_mem _ hv)

theorem alookup_aupdate_self {α β : Type} [DecidableEq α]
    {l : List (α × β)} {k : α} {w : β} (v : β)
    (h : alookup l k = some w) :
    alookup (aupdate l k v) k = some v := by
  induction l with
  | nil => simp [alookup] at h
  | cons p rest ih =>
    obtain ⟨a, b⟩ := p
    by_cases hp : a = k
    · subst hp
      simp [alookup, aupdate]
    · simp only [alookup, if_neg hp] at h
      simpa [aupdate, alookup, hp] using ih h

theorem alookup_aupdate_ne {α β : Type} [DecidableEq α]
    {l : List (α × β)} {k k2 : α} (v : β) (h : k2 ≠ k) :
    alookup (aupdate l k v) k2 = alookup l k2 := by
  induction l with
  | nil => rfl
  | cons p rest ih =>
    obtain ⟨a, b⟩ := p
    by_cases hp : a = k
    · subst hp
      simpa [aupdate, alookup, Ne.symm h] using ih
    · by_cases hq : a = k2
      · simp [aupdate, alookup, hp, hq, h]
      · simpa [aupdate, alookup, hp, hq] using ih

theorem mem_aupdate {α β : Type} [DecidableEq α]
    {l : List (α × β)} {k : α} {v : β} {p : α × β}
    (h : p ∈ aupdate l k v) : p = (k, v) ∨ (p ∈ l ∧ p.1 ≠ k) := by
  rcases List.mem_map.mp h with ⟨q, hq, he⟩
  by_cases hk : q.1 = k
  · left; rw [← he, if_pos hk]
  · right
    rw [← he, if_neg hk]
    exact ⟨hq, hk⟩

theorem alookup_aremove_self {α β : Type} [DecidableEq α]
    (l : List (α × β)) (k : α) :
    alookup (aremove l k) k = none := by
  induction l with
  | nil => rfl
  | cons p rest ih =>
    obtain ⟨a, b⟩ := p
    by_cases hp : a = k
    · simpa [aremove, List.filter_cons, hp] using ih
    · simpa [aremove, List.filter_cons, hp, alookup] using ih

theorem alookup_aremove_ne {α β : Type} [DecidableEq α]
    {l : List (α × β)} {k k2 : α} (h : k2 ≠ k) :
    alookup (aremove l k) k2 = alookup l k2 := by
  induction l with
  | nil => rfl
  | cons p rest ih =>
    obtain ⟨a, b⟩ := p
    by_cases hp : a = k
    · subst hp
      simpa [aremove, List.filter_cons, alookup, Ne.symm h] using ih
    · by_cases hq : a = k2
      · simp [aremove, List.filter_cons, hp, hq, alookup, h]
      · simpa [aremove, List.filter_cons, hp, hq, alookup] using ih

theorem mem_aremove {α β : Type} [DecidableEq α]
    {l : List (α × β)} {k : α} {p : α × β}
    (h : p ∈ aremove l k) : p ∈ l ∧ p.1 ≠ k := by
  have := List.mem_filter.mp h
  refine ⟨this.1, ?_⟩
  simpa using this.2

/-! ## Claim C10: disallowed message variant on the send path panics -/

/-- C10: for every connection in the `Ready` state, the local send path
(`PeerActor::send_message_with_encoding`) invoked with a message whose
variant is not allowed on the connection's tier panics rather than returning
an error or silently dropping the message. -/
theorem c10_send_disallowed_panics (ctx : SendCtx) (s : PeerActorState)
    (msg : PeerMessage) (enc : Encoding) (tier : Tier)
    (hready : s.peer_status = .ready tier)
    (hdisallowed : ctx.is_allowed tier msg = false) :
    send_message_with_encoding ctx s msg enc = .panicked := by
  unfold send_message_with_encoding
  rw [hready]
  simp [hdisallowed]

/-- Witness for C10: a `Ready` T1 connection with an allow-list rejecting
every message panics on sending a `Disconnect`. -/
theorem c10_send_disallowed_panics_witness :
    ({ force_encoding := none, protocol_buffers_supported := false,
       peer_status := .ready .t1, peer_type := .outbound,
       handshake_spec_version := none, routed_message_cache := [],
       txns_since_last_block := 0 } : PeerActorState).peer_status = .ready .t1 ∧
    (fun (_ : Tier) (_ : PeerMessage) => false) .t1 .disconnect = false ∧
    send_message_with_encoding
      { is_allowed := fun _ _ => false, tracker_has_received := fun _ => false,
        serialized_size := fun _ _ => 0 }
      { force_encoding := none, protocol_buffers_supported := false,
        peer_status := .ready .t1, peer_type := .outbound,
        handshake_spec_version := none, routed_message_cache := [],
        txns_since_last_block := 0 }
      .disconnect .proto = .panicked :=
  ⟨rfl, rfl,
   c10_send_disallowed_panics
     { is_allowed := fun _ _ => false, tracker_has_received := fun _ => false,
       serialized_size := fun _ _ => 0 }
     { force_encoding := none, protocol_buffers_supported := false,
       peer_status := .ready .t1, peer_type := .outbound,
       handshake_spec_version := none, routed_message_cache := [],
       txns_since_last_block := 0 }
     .disconnect .proto .t1 rfl rfl⟩

/-! ## Claim C7: protocol version renegotiation on HandshakeFailure -/

/-- C7: an outbound connecting actor receiving
`HandshakeFailure(ProtocolVersionMismatch{version, oldest})` computes
`min(version, PROTOCOL_VERSION)`; when that value is at least
`max(oldest, PEER_MIN_ALLOWED_PROTOCOL_VERSION)` it re-sends the handshake
with that protocol version (updating its handshake spec), and otherwise it
stops the actor. -/
theorem c7_handshake_version_renegotiation (ctx : NetCtx)
    (s : PeerActorState) (peer_info version oldest pv : Nat)
    (houtbound : s.peer_type = .outbound)
    (hspec : s.handshake_spec_version = some pv) :
    (max oldest ctx.peer_min_allowed_protocol_version ≤
        min version ctx.protocol_version →
      handle_msg_connecting ctx s
          (.handshakeFailure peer_info
            (.protocolVersionMismatch version oldest)) =
        ({ s with handshake_spec_version := some (min version ctx.protocol_version) },
         .sentHandshake (min version ctx.protocol_version))) ∧
    (min version ctx.protocol_version <
        max oldest ctx.peer_min_allowed_protocol_version →
      handle_msg_connecting ctx s
          (.handshakeFailure peer_info
            (.protocolVersionMismatch version oldest)) = (s, .stopped)) := by
  have hnotin : ¬ s.peer_type = .inbound := by
    rw [houtbound]; intro h; exact absurd h (by simp)
  constructor
  · intro hge
    have h1 : ¬ (min version ctx.protocol_version < oldest ∨
        min version ctx.protocol_version < ctx.peer_min_allowed_protocol_version) := by
      push_neg
      exact ⟨le_trans (le_max_left _ _) hge, le_trans (le_max_right _ _) hge⟩
    simp only [handle_msg_connecting, if_neg hnotin, if_neg h1, hspec]
  · intro hlt
    have h1 : min version ctx.protocol_version < oldest ∨
        min version ctx.protocol_version < ctx.peer_min_allowed_protocol_version := by
      rcases max_cases oldest ctx.peer_min_allowed_protocol_version with ⟨he, _⟩ | ⟨he, _⟩
      · left; rw [← he]; exact hlt
      · right; rw [← he]; exact hlt
    simp only [handle_msg_connecting, if_neg hnotin, if_pos h1]

/-- Witness for C7, matching the spec's scenario S4: our versions are
`[55, 60]`, the peer answers `ProtocolVersionMismatch{version=58, oldest=55}`,
and the actor retries with version `58`. -/
theorem c7_handshake_version_renegotiation_witness :
    ({ force_encoding := none, protocol_buffers_supported := false,
       peer_status := .connecting, peer_type := .outbound,
       handshake_spec_version := some 60, routed_message_cache := [],
       txns_since_last_block := 0 } : PeerActorState).peer_type = .outbound ∧
    ({ force_encoding := none, protocol_buffers_supported := false,
       peer_status := .connecting, peer_type := .outbound,
       handshake_spec_version := some 60, routed_message_cache := [],
       txns_since_last_block := 0 } : PeerActorState).handshake_spec_version =
      some 60 ∧
    ((max 55 55 ≤ min 58 60 →
      handle_msg_connecting
          { protocol_version := 60, peer_min_allowed_protocol_version := 55,
            is_allowed := fun _ _ => true }
          { force_encoding := none, protocol_buffers_supported := false,
            peer_status := .connecting, peer_type := .outbound,
            handshake_spec_version := some 60, routed_message_cache := [],
            txns_since_last_block := 0 }
          (.handshakeFailure 7 (.protocolVersionMismatch 58 55)) =
        ({ force_encoding := none, protocol_buffers_supported := false,
           peer_status := .connecting, peer_type := .outbound,
           handshake_spec_version := some (min 58 60), routed_message_cache := [],
           txns_since_last_block := 0 },
         .sentHandshake (min 58 60))) ∧
     (min 58 60 < max 55 55 →
      handle_msg_connecting
          { protocol_version := 60, peer_min_allowed_protocol_version := 55,
            is_allowed := fun _ _ => true }
          { force_encoding := none, protocol_buffers_supported := false,
            peer_status := .connecting, peer_type := .outbound,
            handshake_spec_version := some 60, routed_message_cache := [],
            txns_since_last_block := 0 }
          (.handshakeFailure 7 (.protocolVersionMismatch 58 55)) =
        ({ force_encoding := none, protocol_buffers_supported := false,
           peer_status := .connecting, peer_type := .outbound,
           handshake_spec_version := some 60, routed_message_cache := [],
           txns_since_last_block := 0 }, .stopped))) :=
  ⟨rfl, rfl,
   c7_handshake_version_renegotiation
     { protocol_version := 60, peer_min_allowed_protocol_version := 55,
       is_allowed := fun _ _ => true }
     { force_encoding := none, protocol_buffers_supported := false,
       peer_status := .connecting, peer_type := .outbound,
       handshake_spec_version := some 60, routed_message_cache := [],
       txns_since_last_block := 0 }
     7 58 55 60 rfl rfl⟩

/-! ## Claim C8: per-connection encoding determination -/

/-- C8: the encoding used for communication: a configured `force_encoding`
always wins; otherwise while `Connecting` parsing tries Proto first and then
Borsh and sending emits under both encodings; a successful Proto parse
latches `protocol_buffers_supported`, after which sends use Proto only; and
a connection that left the `Connecting` state without latching Proto support
sends Borsh only. -/
theorem c8_encoding_policy (s : PeerActorState) (f : Frame) :
    (∀ e, s.force_encoding = some e →
      s.encoding = some e ∧ parse_message s f = (s, f.deserialize e) ∧
      send_encodings s = [e]) ∧
    (s.force_encoding = none → s.protocol_buffers_supported = false →
      s.peer_status = .connecting →
      send_encodings s = [.proto, .borsh] ∧
      (∀ m, f.asProto = some m →
        parse_message s f = ({ s with protocol_buffers_supported := true }, some m)) ∧
      (f.asProto = none → parse_message s f = (s, f.asBorsh))) ∧
    (s.force_encoding = none → s.protocol_buffers_supported = true →
      s.encoding = some .proto ∧ parse_message s f = (s, f.asProto) ∧
      send_encodings s = [.proto]) ∧
    (s.force_encoding = none → s.protocol_buffers_supported = false →
      s.peer_status ≠ .connecting →
      s.encoding = some .borsh ∧ parse_message s f = (s, f.asBorsh) ∧
      send_encodings s = [.borsh]) := by
  refine ⟨?_, ?_, ?_, ?_⟩
  · intro e hf
    have henc : s.encoding = some e := by
      simp [PeerActorState.encoding, hf]
    refine ⟨henc, ?_, ?_⟩
    · simp [parse_message, henc]
    · simp [send_encodings, henc]
  · intro hf hpb hst
    have henc : s.encoding = none := by
      simp [PeerActorState.encoding, hf, hpb, hst]
    refine ⟨by simp [send_encodings, henc], ?_, ?_⟩
    · intro m hm
      simp [parse_message, henc, hm]
    · intro hm
      simp [parse_message, henc, hm]
  · intro hf hpb
    have henc : s.encoding = some .proto := by
      simp [PeerActorState.encoding, hf, hpb]
    exact ⟨henc, by simp [parse_message, henc, Frame.deserialize],
      by simp [send_encodings, henc]⟩
  · intro hf hpb hst
    have henc : s.encoding = some .borsh := by
      simp only [PeerActorState.encoding, hf, hpb, if_false]
      cases hs : s.peer_status with
      | connecting => exact absurd hs hst
      | ready tier => rfl
      | banned r => rfl
    exact ⟨henc, by simp [parse_message, henc, Frame.deserialize],
      by simp [send_encodings, henc]⟩

/-! ## Concrete fixtures for the peer-side counterexamples and witnesses -/

/-- A permissive network context: versions `[55, 60]`, all variants allowed
on every tier. -/
def permissiveCtx : NetCtx :=
  { protocol_version := 60
    peer_min_allowed_protocol_version := 55
    is_allowed := fun _ _ => true }

/-- A ready T2 connection with the Borsh encoding forced, an empty dedup
cache and a zero transaction counter. -/
def borshReadyState : PeerActorState :=
  { force_encoding := some .borsh
    protocol_buffers_supported := false
    peer_status := .ready .t2
    peer_type := .inbound
    handshake_spec_version := none
    routed_message_cache := []
    txns_since_last_block := 0 }

/-! ## Claim C4: decode failure under an established encoding -/

/-- Counterexample to C4 as stated: on a connection with an established
encoding (here forced Borsh, `Ready`), a frame that fails to decode yields
the `parseError` outcome — the frame is logged at debug severity and
ignored, the actor is NOT stopped (`ctx.stop()` is not called: the handler
just returns) and the state is unchanged, whereas the claim requires the
connection to be closed. -/
theorem c4_counterexample :
    (handleFrame permissiveCtx borshReadyState
        { asProto := some (.otherMsg 0), asBorsh := none } 0).2 = .parseError ∧
    FrameOutcome.closesConnection
      (handleFrame permissiveCtx borshReadyState
        { asProto := some (.otherMsg 0), asBorsh := none } 0).2 = false ∧
    (handleFrame permissiveCtx borshReadyState
        { asProto := some (.otherMsg 0), asBorsh := none } 0).1 =
      borshReadyState := by
  refine ⟨rfl, rfl, rfl⟩

/-- C4 amended: when an inbound frame fails to decode under an established
encoding (force_encoding set, or handshake finished), the handler logs at
debug severity and ignores the frame: it is not dispatched, no ban is
recorded and the connection is left open (the state is unchanged and the
outcome does not close the connection). -/
theorem c4_parse_error_is_ignored (ctx : NetCtx) (s : PeerActorState)
    (f : Frame) (now : Nat) (e : Encoding)
    (henc : s.encoding = some e) (hfail : f.deserialize e = none) :
    handleFrame ctx s f now = (s, .parseError) ∧
    FrameOutcome.closesConnection (handleFrame ctx s f now).2 = false := by
  have hparse : parse_message s f = (s, none) := by
    simp [parse_message, henc, hfail]
  constructor
  · unfold handleFrame
    rw [hparse]
  · unfold handleFrame
    rw [hparse]
    rfl

/-- Witness for the amended C4 at a concrete forced-Borsh ready state. -/
theorem c4_parse_error_is_ignored_witness :
    borshReadyState.encoding = some .borsh ∧
    ({ asProto := some (.otherMsg 0), asBorsh := none } : Frame).deserialize
        .borsh = none ∧
    (handleFrame permissiveCtx borshReadyState
        { asProto := some (.otherMsg 0), asBorsh := none } 3 =
      (borshReadyState, .parseError) ∧
    FrameOutcome.closesConnection
      (handleFrame permissiveCtx borshReadyState
        { asProto := some (.otherMsg 0), asBorsh := none } 3).2 = false) :=
  ⟨rfl, rfl,
   c4_parse_error_is_ignored permissiveCtx borshReadyState
     { asProto := some (.otherMsg 0), asBorsh := none } 3 .borsh rfl rfl⟩

/-! ## Preservation lemmas for the status dispatch -/

theorem handle_msg_connecting_preserves (ctx : NetCtx) (s : PeerActorState)
    (m : PeerMessage) :
    (handle_msg_connecting ctx s m).1.routed_message_cache =
        s.routed_message_cache ∧
    (handle_msg_connecting ctx s m).1.txns_since_last_block =
        s.txns_since_last_block := by
  unfold handle_msg_connecting
  cases m <;> try exact ⟨rfl, rfl⟩
  case handshakeFailure info reason =>
    dsimp only
    by_cases hin : s.peer_type = .inbound
    · rw [if_pos hin]; exact ⟨rfl, rfl⟩
    · rw [if_neg hin]
      cases reason with
      | genesisMismatch g => exact ⟨rfl, rfl⟩
      | invalidTarget => exact ⟨rfl, rfl⟩
      | protocolVersionMismatch v o =>
        dsimp only
        split_ifs with h1
        · exact ⟨rfl, rfl⟩
        · cases h : s.handshake_spec_version <;> exact ⟨rfl, rfl⟩

theorem handle_msg_ready_preserves (s : PeerActorState) (m : PeerMessage) :
    (handle_msg_ready s m).1 = s := by
  unfold handle_msg_ready
  cases m <;> rfl

theorem dispatchStage_preserves (ctx : NetCtx) (s : PeerActorState)
    (m : PeerMessage) :
    (dispatchStage ctx s m).1.routed_message_cache = s.routed_message_cache ∧
    (dispatchStage ctx s m).1.txns_since_last_block = s.txns_since_last_block := by
  unfold dispatchStage
  cases hs : s.peer_status with
  | connecting => exact handle_msg_connecting_preserves ctx s m
  | ready tier =>
    dsimp only
    split_ifs with h1
    · rw [handle_msg_ready_preserves]; exact ⟨rfl, rfl⟩
    · exact ⟨rfl, rfl⟩
  | banned r => exact ⟨rfl, rfl⟩

theorem alookup_lruPut_self (cache : List ((Nat × Nat × Nat) × Nat))
    (k : Nat × Nat × Nat) (v : Nat) (cap : Nat) (hcap : 0 < cap) :
    alookup (lruPut cache k v cap) k = some v := by
  unfold lruPut
  cases cap with
  | zero => exact absurd hcap (by simp)
  | succ n => simp [List.take, alookup]

/-- Whether a routed body is a `ForwardTx`. -/
def RoutedMessageBody.isForwardTx : RoutedMessageBody → Bool
  | .forwardTx _ => true
  | _ => false

/-- The dedup check of the frame handler passes: the key is absent from the
cache, or its recorded time is older than `DROP_DUPLICATED_MESSAGES_PERIOD`. -/
def dedupPasses (s : PeerActorState) (rm : RoutedMessage) (now : Nat) : Bool :=
  match (lruGet s.routed_message_cache rm.key).2 with
  | none => true
  | some t => decide (now > t + DROP_DUPLICATED_MESSAGES_PERIOD)

theorem handleFrame_routed_dup (ctx : NetCtx) (s s1 : PeerActorState)
    (f : Frame) (rm : RoutedMessage) (now t : Nat)
    (hparse : parse_message s f = (s1, some (.routed rm)))
    (hhit : (lruGet s1.routed_message_cache rm.key).2 = some t)
    (hle : now ≤ t + DROP_DUPLICATED_MESSAGES_PERIOD) :
    handleFrame ctx s f now =
      ({ s1 with routed_message_cache := (lruGet s1.routed_message_cache rm.key).1 },
       .dedupDrop) := by
  unfold handleFrame
  rw [hparse]
  dsimp only
  rw [hhit]
  dsimp only
  rw [if_pos hle]

theorem handleFrame_routed_pass (ctx : NetCtx) (s s1 : PeerActorState)
    (f : Frame) (rm : RoutedMessage) (now : Nat)
    (hparse : parse_message s f = (s1, some (.routed rm)))
    (hmiss : dedupPasses s1 rm now = true) :
    handleFrame ctx s f now =
      routedPreprocess ctx
        { s1 with routed_message_cache := (lruGet s1.routed_message_cache rm.key).1 }
        rm now := by
  unfold handleFrame
  rw [hparse]
  dsimp only
  cases hhit : (lruGet s1.routed_message_cache rm.key).2 with
  | none => rfl
  | some t =>
    dsimp only
    unfold dedupPasses at hmiss
    rw [hhit] at hmiss
    simp only [decide_eq_true_eq] at hmiss
    rw [if_neg (by omega)]

theorem handleFrame_block (ctx : NetCtx) (s s1 : PeerActorState) (f : Frame)
    (b now : Nat) (hparse : parse_message s f = (s1, some (.block b))) :
    handleFrame ctx s f now =
      dispatchStage ctx { s1 with txns_since_last_block := 0 } (.block b) := by
  unfold handleFrame
  rw [hparse]

/-! ## Fixtures for routed-message claims -/

/-- A routed message with a non-`ForwardTx` body and dedup key `(1,2,3)`. -/
def routedOther : RoutedMessage :=
  { author := 1, target := 2, signature := 3, body := .otherBody 0 }

/-- A Borsh frame carrying `routedOther`. -/
def routedOtherFrame : Frame :=
  { asProto := none, asBorsh := some (.routed routedOther) }

/-- A routed `ForwardTx` with dedup key `(1,2,3)`. -/
def routedTx : RoutedMessage :=
  { author := 1, target := 2, signature := 3, body := .forwardTx 9 }

/-- A Borsh frame carrying `routedTx`. -/
def routedTxFrame : Frame :=
  { asProto := none, asBorsh := some (.routed routedTx) }

/-- Like `borshReadyState` but with the transaction counter already above
`MAX_TRANSACTIONS_PER_BLOCK_MESSAGE`. -/
def overloadState : PeerActorState :=
  { force_encoding := some .borsh
    protocol_buffers_supported := false
    peer_status := .ready .t2
    peer_type := .inbound
    handshake_spec_version := none
    routed_message_cache := []
    txns_since_last_block := 1001 }

/-- Like `borshReadyState` but with dedup key `(1,2,3)` recorded at time 0. -/
def dupCacheState : PeerActorState :=
  { force_encoding := some .borsh
    protocol_buffers_supported := false
    peer_status := .ready .t2
    peer_type := .inbound
    handshake_spec_version := none
    routed_message_cache := [((1, 2, 3), 0)]
    txns_since_last_block := 0 }

/-! ## Claim C5: routed-message dedup -/

/-- Counterexample to C5 as stated: a routed `ForwardTx` whose dedup key was
never seen arrives while `txns_since_last_block` is above the limit.  The
claim requires the current timestamp to be recorded for the key (the key was
not seen within the last 50 ms), but the handler drops the message for
counter overload before the `put`, so nothing is recorded. -/
theorem c5_counterexample :
    (handleFrame permissiveCtx overloadState routedTxFrame 7).2 =
      .txOverloadDrop ∧
    (lruGet overloadState.routed_message_cache routedTx.key).2 = none ∧
    ¬ (alookup
        (handleFrame permissiveCtx overloadState routedTxFrame 7).1.routed_message_cache
        routedTx.key = some 7) := by
  refine ⟨rfl, rfl, by decide⟩

/-- C5 amended: for every received routed message the receiver forms the
dedup key `(author, target, signature)`; a message whose key was recorded
within the last 50 ms is dropped without dispatch; otherwise — unless the
message is a `ForwardTx` dropped by the transaction counter — the current
timestamp is recorded for the key in the LRU cache of capacity 1000.
Consequently, of two identical routed messages 10 ms apart the second is
dropped, and a third identical message arriving 60 ms after the first is
dispatched. -/
theorem c5_routed_dedup_and_record (ctx : NetCtx) (s s1 : PeerActorState)
    (f : Frame) (rm : RoutedMessage) (now : Nat)
    (hparse : parse_message s f = (s1, some (.routed rm))) :
    (∀ t, (lruGet s1.routed_message_cache rm.key).2 = some t →
      now ≤ t + DROP_DUPLICATED_MESSAGES_PERIOD →
      handleFrame ctx s f now =
        ({ s1 with routed_message_cache := (lruGet s1.routed_message_cache rm.key).1 },
         .dedupDrop)) ∧
    (dedupPasses s1 rm now = true →
      (rm.body.isForwardTx = true →
        s1.txns_since_last_block ≤ MAX_TRANSACTIONS_PER_BLOCK_MESSAGE) →
      alookup (handleFrame ctx s f now).1.routed_message_cache rm.key =
        some now) ∧
    ((handleFrame permissiveCtx borshReadyState routedOtherFrame 0).2 =
        .dispatched (.routed routedOther) ∧
      (handleFrame permissiveCtx
          (handleFrame permissiveCtx borshReadyState routedOtherFrame 0).1
          routedOtherFrame 10).2 = .dedupDrop ∧
      (handleFrame permissiveCtx
          (handleFrame permissiveCtx
            (handleFrame permissiveCtx borshReadyState routedOtherFrame 0).1
            routedOtherFrame 10).1
          routedOtherFrame 60).2 = .dispatched (.routed routedOther)) := by
  refine ⟨?_, ?_, by decide⟩
  · intro t hhit hle
    exact handleFrame_routed_dup ctx s s1 f rm now t hparse hhit hle
  · intro hmiss hnot
    rw [handleFrame_routed_pass ctx s s1 f rm now hparse hmiss]
    unfold routedPreprocess
    cases hb : rm.body with
    | forwardTx tx =>
      have hle := hnot (by rw [hb]; rfl)
      dsimp only
      rw [if_neg (by omega)]
      rw [(dispatchStage_preserves _ _ _).1]
      exact alookup_lruPut_self _ _ _ _ (by norm_num [ROUTED_MESSAGE_CACHE_SIZE])
    | otherBody x =>
      dsimp only
      rw [(dispatchStage_preserves _ _ _).1]
      exact alookup_lruPut_self _ _ _ _ (by norm_num [ROUTED_MESSAGE_CACHE_SIZE])

/-- Witness for the amended C5: a fresh routed message at time 4 gets its
timestamp recorded under its dedup key. -/
theorem c5_routed_dedup_and_record_witness :
    alookup
      (handleFrame permissiveCtx borshReadyState routedOtherFrame 4).1.routed_message_cache
      routedOther.key = some 4 :=
  (c5_routed_dedup_and_record permissiveCtx borshReadyState borshReadyState
    routedOtherFrame routedOther 4 rfl).2.1 rfl (by decide)

/-! ## Claim C6: ForwardTx rate limiting by txns_since_last_block -/

/-- Counterexample to C6 as stated: a routed `ForwardTx` that is a dedup
duplicate (same key received 10 ms earlier) arrives while the counter is 0.
The claim requires the counter to be consulted and incremented (it does not
exceed 1000) and the message to proceed, but the handler drops the message
at the dedup stage and the counter stays 0. -/
theorem c6_counterexample :
    (handleFrame permissiveCtx dupCacheState routedTxFrame 10).2 = .dedupDrop ∧
    (handleFrame permissiveCtx dupCacheState routedTxFrame 10).1.txns_since_last_block
      = 0 ∧
    ¬ ((handleFrame permissiveCtx dupCacheState routedTxFrame 10).1.txns_since_last_block
      = 0 + 1) := by
  refine ⟨rfl, rfl, by decide⟩

/-- C6 amended: for every received `Routed(ForwardTx)` that passes the
duplicate check, the process-wide counter `txns_since_last_block` is
consulted: the message is dropped (and the counter left unchanged) when the
counter exceeds 1000, and otherwise the counter is incremented and the
message proceeds to the status dispatch; receipt of any `Block` message
resets the counter to 0. -/
theorem c6_forward_tx_rate_limit (ctx : NetCtx) (s s1 : PeerActorState)
    (f : Frame) (rm : RoutedMessage) (tx now : Nat)
    (hparse : parse_message s f = (s1, some (.routed rm)))
    (hbody : rm.body = .forwardTx tx)
    (hmiss : dedupPasses s1 rm now = true) :
    (s1.txns_since_last_block > MAX_TRANSACTIONS_PER_BLOCK_MESSAGE →
      handleFrame ctx s f now =
        ({ s1 with routed_message_cache := (lruGet s1.routed_message_cache rm.key).1 },
         .txOverloadDrop)) ∧
    (s1.txns_since_last_block ≤ MAX_TRANSACTIONS_PER_BLOCK_MESSAGE →
      handleFrame ctx s f now =
        dispatchStage ctx
          { s1 with
            txns_since_last_block := s1.txns_since_last_block + 1
            routed_message_cache :=
              lruPut (lruGet s1.routed_message_cache rm.key).1 rm.key now
                ROUTED_MESSAGE_CACHE_SIZE }
          (.routed rm) ∧
      (handleFrame ctx s f now).1.txns_since_last_block =
        s1.txns_since_last_block + 1) ∧
    (∀ f2 s2 b, parse_message s f2 = (s2, some (.block b)) →
      (handleFrame ctx s f2 now).1.txns_since_last_block = 0) := by
  have hred := handleFrame_routed_pass ctx s s1 f rm now hparse hmiss
  refine ⟨?_, ?_, ?_⟩
  · intro hgt
    rw [hred]
    unfold routedPreprocess
    rw [hbody]
    dsimp only
    rw [if_pos hgt]
  · intro hle
    have hnot : ¬ s1.txns_since_last_block > MAX_TRANSACTIONS_PER_BLOCK_MESSAGE := by
      omega
    refine ⟨?_, ?_⟩
    · rw [hred]
      unfold routedPreprocess
      rw [hbody]
      dsimp only
      rw [if_neg hnot]
    · rw [hred]
      unfold routedPreprocess
      rw [hbody]
      dsimp only
      rw [if_neg hnot]
      rw [(dispatchStage_preserves _ _ _).2]
  · intro f2 s2 b hp2
    rw [handleFrame_block ctx s s2 f2 b now hp2]
    rw [(dispatchStage_preserves _ _ _).2]

/-- Witness for the amended C6: a fresh `ForwardTx` at counter 0 increments
the counter to 1. -/
theorem c6_forward_tx_rate_limit_witness :
    (handleFrame permissiveCtx borshReadyState routedTxFrame 5).1.txns_since_last_block
      = borshReadyState.txns_since_last_block + 1 :=
  ((c6_forward_tx_rate_limit permissiveCtx borshReadyState borshReadyState
    routedTxFrame routedTx 9 5 rfl rfl rfl).2.1 (by decide)).2

/-! ## Field-preservation lemmas for chunk-cache operations -/

theorem rcfic_fields (c : EncodedChunksCache) (prev ch : Nat) :
    (c.remove_chunk_from_incomplete_chunks prev ch).encoded_chunks =
        c.encoded_chunks ∧
    (c.remove_chunk_from_incomplete_chunks prev ch).height_map = c.height_map ∧
    (c.remove_chunk_from_incomplete_chunks prev ch).block_hash_to_chunk_headers =
        c.block_hash_to_chunk_headers ∧
    (c.remove_chunk_from_incomplete_chunks prev ch).largest_seen_height =
        c.largest_seen_height := by
  unfold EncodedChunksCache.remove_chunk_from_incomplete_chunks
  cases alookup c.incomplete_chunks prev with
  | none => exact ⟨rfl, rfl, rfl, rfl⟩
  | some s =>
    dsimp only
    split_ifs <;> exact ⟨rfl, rfl, rfl, rfl⟩

theorem remove_fields (c : EncodedChunksCache) (ch : Nat) :
    (c.remove ch).1.height_map = c.height_map ∧
    (c.remove ch).1.block_hash_to_chunk_headers = c.block_hash_to_chunk_headers ∧
    (c.remove ch).1.largest_seen_height = c.largest_seen_height := by
  unfold EncodedChunksCache.remove
  cases alookup c.encoded_chunks ch with
  | none => exact ⟨rfl, rfl, rfl⟩
  | some e =>
    dsimp only
    obtain ⟨_, h2, h3, h4⟩ := rcfic_fields
      { c with encoded_chunks := aremove c.encoded_chunks ch }
      e.header.prev_block_hash ch
    exact ⟨h2, h3, h4⟩

theorem remove_chunk_header_fields (c : EncodedChunksCache)
    (hd : ShardChunkHeader) :
    (c.remove_chunk_header hd).encoded_chunks = c.encoded_chunks ∧
    (c.remove_chunk_header hd).height_map = c.height_map ∧
    (c.remove_chunk_header hd).incomplete_chunks = c.incomplete_chunks ∧
    (c.remove_chunk_header hd).largest_seen_height = c.largest_seen_height := by
  unfold EncodedChunksCache.remove_chunk_header
  cases alookup c.block_hash_to_chunk_headers hd.prev_block_hash with
  | none => exact ⟨rfl, rfl, rfl, rfl⟩
  | some m =>
    dsimp only
    cases alookup m hd.shard_id with
    | none => exact ⟨rfl, rfl, rfl, rfl⟩
    | some h =>
      dsimp only
      split_ifs <;> exact ⟨rfl, rfl, rfl, rfl⟩

theorem sweepChunks_fields (l : List Nat) :
    ∀ (c : EncodedChunksCache) (req : List Nat),
    (sweepChunks c l req).height_map = c.height_map ∧
    (sweepChunks c l req).largest_seen_height = c.largest_seen_height := by
  induction l with
  | nil => intro c req; exact ⟨rfl, rfl⟩
  | cons ch rest ih =>
    intro c req
    unfold sweepChunks
    split_ifs with hmem
    · exact ih c req
    · cases hrem : c.remove ch with
    | mk c2 o =>
      have hfields := remove_fields c ch
      rw [hrem] at hfields
      cases o with
      | some e =>
        dsimp only
        obtain ⟨ih1, ih2⟩ := ih (c2.remove_chunk_header e.header) req
        rw [ih1, ih2, (remove_chunk_header_fields c2 e.header).2.1,
          (remove_chunk_header_fields c2 e.header).2.2.2]
        exact ⟨hfields.1, hfields.2.2⟩
      | none =>
        dsimp only
        obtain ⟨ih1, ih2⟩ := ih c2 req
        rw [ih1, ih2]
        exact ⟨hfields.1, hfields.2.2⟩

theorem sweepHeight_self_none (c : EncodedChunksCache) (t : Nat)
    (req : List Nat) :
    alookup (sweepHeight c t req).height_map t = none := by
  unfold sweepHeight
  cases hb : alookup c.height_map t with
  | none => exact hb
  | some chunks =>
    dsimp only
    rw [(sweepChunks_fields chunks _ req).1]
    exact alookup_aremove_self c.height_map t

theorem sweepHeight_preserve_none (c : EncodedChunksCache) (t u : Nat)
    (req : List Nat) (h : alookup c.height_map u = none) :
    alookup (sweepHeight c t req).height_map u = none := by
  unfold sweepHeight
  cases hb : alookup c.height_map t with
  | none => exact h
  | some chunks =>
    dsimp only
    rw [(sweepChunks_fields chunks _ req).1]
    by_cases hut : u = t
    · subst hut
      exact alookup_aremove_self c.height_map u
    · rw [alookup_aremove_ne hut]
      exact h

theorem sweepHeights_preserve_none (hs : List Nat) :
    ∀ (c : EncodedChunksCache) (u : Nat) (req : List Nat),
    alookup c.height_map u = none →
    alookup (sweepHeights c hs req).height_map u = none := by
  induction hs with
  | nil => intro c u req h; exact h
  | cons t rest ih =>
    intro c u req h
    exact ih _ u req (sweepHeight_preserve_none c t u req h)

theorem sweepHeights_mem_none (hs : List Nat) :
    ∀ (c : EncodedChunksCache) (u : Nat) (req : List Nat), u ∈ hs →
    alookup (sweepHeights c hs req).height_map u = none := by
  induction hs with
  | nil => intro c u req h; cases h
  | cons t rest ih =>
    intro c u req h
    rcases List.mem_cons.mp h with h1 | h2
    · subst h1
      exact sweepHeights_preserve_none rest _ u req
        (sweepHeight_self_none c u req)
    · exact ih _ u req h2

theorem rcfic_not_mem (c : EncodedChunksCache) (prev ch : Nat) (s : List Nat)
    (h : alookup
        (c.remove_chunk_from_incomplete_chunks prev ch).incomplete_chunks prev =
      some s) : ch ∉ s := by
  unfold EncodedChunksCache.remove_chunk_from_incomplete_chunks at h
  cases hb : alookup c.incomplete_chunks prev with
  | none =>
    rw [hb] at h
    rw [hb] at h
    exact absurd h (by simp)
  | some s0 =>
    rw [hb] at h
    dsimp only at h
    split_ifs at h with hemp
    · rw [alookup_aremove_self] at h
      exact absurd h (by simp)
    · rw [alookup_aupdate_self _ hb] at h
      injection h with h
      subst h
      intro hmem
      have := List.mem_filter.mp hmem
      simp at this

/-! ## Claim C9: frame effect of remove -/

/-- C9: for a cache containing an entry for chunk hash `ch`, `remove ch`
returns the removed entry, deletes `ch` from `encoded_chunks` and from the
incomplete bucket of its previous block hash, but leaves `height_map`
entirely unchanged (so `ch` stays in the set at its height); the stale
`height_map` key is cleared only when a later `update_largest_seen_height`
sweeps that height, which the last conjunct shows. -/
theorem c9_remove_frame_effect (c : EncodedChunksCache) (ch : Nat)
    (e : EncodedChunksCacheEntry)
    (hlook : alookup c.encoded_chunks ch = some e) :
    (c.remove ch).2 = some e ∧
    alookup (c.remove ch).1.encoded_chunks ch = none ∧
    (∀ s, alookup (c.remove ch).1.incomplete_chunks e.header.prev_block_hash =
        some s → ch ∉ s) ∧
    (c.remove ch).1.height_map = c.height_map ∧
    (∀ new_height requested,
      (c.remove ch).1.largest_seen_height - HEIGHT_HORIZON ≤
          e.header.height_created →
      e.header.height_created < new_height - HEIGHT_HORIZON →
      alookup
        (((c.remove ch).1).update_largest_seen_height new_height
          requested).height_map e.header.height_created = none) := by
  have hred : c.remove ch =
      (EncodedChunksCache.remove_chunk_from_incomplete_chunks
        { c with encoded_chunks := aremove c.encoded_chunks ch }
        e.header.prev_block_hash ch, some e) := by
    unfold EncodedChunksCache.remove
    rw [hlook]
  refine ⟨by rw [hred], ?_, ?_, ?_, ?_⟩
  · rw [hred]
    rw [show (EncodedChunksCache.remove_chunk_from_incomplete_chunks
        { c with encoded_chunks := aremove c.encoded_chunks ch }
        e.header.prev_block_hash ch, some e).1.encoded_chunks =
        aremove c.encoded_chunks ch from (rcfic_fields _ _ _).1]
    exact alookup_aremove_self c.encoded_chunks ch
  · intro s hs
    rw [hred] at hs
    exact rcfic_not_mem _ _ _ _ hs
  · rw [hred]
    exact (rcfic_fields _ _ _).2.1
  · intro new_height requested h1 h2
    unfold EncodedChunksCache.update_largest_seen_height
    apply sweepHeights_mem_none
    rw [List.mem_range']
    exact ⟨e.header.height_created -
      ((c.remove ch).1.largest_seen_height - HEIGHT_HORIZON), by omega, by omega⟩

/-- The header used by the C9 witness. -/
def c9hdr : ShardChunkHeader :=
  { chunk_hash := 11, height_created := 4, prev_block_hash := 7, shard_id := 0 }

/-- The cache used by the C9 witness: one merged (empty) partial chunk. -/
def c9cache : EncodedChunksCache :=
  (EncodedChunksCache.new.merge_in_partial_encoded_chunk
    { header := c9hdr, parts := [], receipts := [] }).1

/-- Witness for C9 at the one-entry cache: `remove` leaves the height map
unchanged. -/
theorem c9_remove_frame_effect_witness :
    (c9cache.remove 11).1.height_map = c9cache.height_map :=
  (c9_remove_frame_effect c9cache 11
    (EncodedChunksCacheEntry.from_chunk_header c9hdr) (by decide)).2.2.2.1

/-! ## Membership and kill lemmas for the sweep -/

theorem remove_lookup_self (c : EncodedChunksCache) (ch : Nat) :
    alookup (c.remove ch).1.encoded_chunks ch = none := by
  unfold EncodedChunksCache.remove
  cases hb : alookup c.encoded_chunks ch with
  | none => exact hb
  | some e =>
    dsimp only
    rw [(rcfic_fields _ _ _).1]
    exact alookup_aremove_self c.encoded_chunks ch

theorem mem_remove_sub (c : EncodedChunksCache) (ch : Nat)
    (p : Nat × EncodedChunksCacheEntry)
    (hp : p ∈ (c.remove ch).1.encoded_chunks) : p ∈ c.encoded_chunks := by
  unfold EncodedChunksCache.remove at hp
  cases hb : alookup c.encoded_chunks ch with
  | none =>
    rw [hb] at hp
    exact hp
  | some e =>
    rw [hb] at hp
    dsimp only at hp
    rw [(rcfic_fields _ _ _).1] at hp
    exact (mem_aremove hp).1

theorem mem_sweepChunks_sub (l : List Nat) :
    ∀ (c : EncodedChunksCache) (req : List Nat)
      (p : Nat × EncodedChunksCacheEntry),
    p ∈ (sweepChunks c l req).encoded_chunks → p ∈ c.encoded_chunks := by
  induction l with
  | nil => intro c req p hp; exact hp
  | cons x rest ih =>
    intro c req p hp
    unfold sweepChunks at hp
    split_ifs at hp with hx
    · exact ih c req p hp
    · cases hrem : c.remove x with
    | mk c2 o =>
      rw [hrem] at hp
      have hsub : p ∈ c2.encoded_chunks → p ∈ c.encoded_chunks := by
        intro h
        have := mem_remove_sub c x p
        rw [hrem] at this
        exact this h
      cases o with
      | some e =>
        dsimp only at hp
        have := ih _ req p hp
        rw [(remove_chunk_header_fields c2 e.header).1] at this
        exact hsub this
      | none =>
        dsimp only at hp
        exact hsub (ih _ req p hp)

theorem sweepChunks_preserve_none (l : List Nat) (c : EncodedChunksCache)
    (req : List Nat) (ch : Nat)
    (h : alookup c.encoded_chunks ch = none) :
    alookup (sweepChunks c l req).encoded_chunks ch = none := by
  rw [alookup_eq_none_iff] at h ⊢
  intro v hv
  exact h v (mem_sweepChunks_sub l c req (ch, v) hv)

theorem sweepChunks_kill (l : List Nat) :
    ∀ (c : EncodedChunksCache) (req : List Nat) (ch : Nat),
    ch ∈ l → ch ∉ req →
    alookup (sweepChunks c l req).encoded_chunks ch = none := by
  induction l with
  | nil => intro c req ch h; cases h
  | cons x rest ih =>
    intro c req ch hmem hreq
    unfold sweepChunks
    split_ifs with hx
    · have hrest : ch ∈ rest := by
        rcases List.mem_cons.mp hmem with h1 | h2
        · exact absurd (h1 ▸ hx) hreq
        · exact h2
      exact ih c req ch hrest hreq
    · cases hrem : c.remove x with
    | mk c2 o =>
      have hself : alookup (c.remove x).1.encoded_chunks x = none :=
        remove_lookup_self c x
      rw [hrem] at hself
      cases o with
      | some e =>
        dsimp only
        rcases List.mem_cons.mp hmem with h1 | h2
        · subst h1
          apply sweepChunks_preserve_none
          rw [(remove_chunk_header_fields c2 e.header).1]
          exact hself
        · exact ih _ req ch h2 hreq
      | none =>
        dsimp only
        rcases List.mem_cons.mp hmem with h1 | h2
        · subst h1
          exact sweepChunks_preserve_none _ _ _ _ hself
        · exact ih _ req ch h2 hreq

/-! ## Claim C1: horizon after update_largest_seen_height -/

theorem sweepHeight_step (c : EncodedChunksCache) (t B : Nat) (req : List Nat)
    (hinv : ∀ p, p ∈ c.encoded_chunks →
      p.1 ∈ req ∨
      (t ≤ p.2.header.height_created ∧ p.2.header.height_created ≤ B ∧
       ∃ s, alookup c.height_map p.2.header.height_created = some s ∧
         p.1 ∈ s)) :
    ∀ p, p ∈ (sweepHeight c t req).encoded_chunks →
      p.1 ∈ req ∨
      (t + 1 ≤ p.2.header.height_created ∧ p.2.header.height_created ≤ B ∧
       ∃ s, alookup (sweepHeight c t req).height_map p.2.header.height_created =
         some s ∧ p.1 ∈ s) := by
  intro p hp
  cases hb : alookup c.height_map t with
  | none =>
    have hstate : sweepHeight c t req = c := by
      unfold sweepHeight
      rw [hb]
    rw [hstate] at hp ⊢
    rcases hinv p hp with h1 | ⟨h2, h3, s, h4, h5⟩
    · exact Or.inl h1
    · have hne : p.2.header.height_created ≠ t := by
        intro he
        rw [he, hb] at h4
        exact absurd h4 (by simp)
      exact Or.inr ⟨by omega, h3, s, h4, h5⟩
  | some chunks =>
    have hstate : sweepHeight c t req =
        sweepChunks { c with height_map := aremove c.height_map t } chunks req := by
      unfold sweepHeight
      rw [hb]
    rw [hstate] at hp ⊢
    have hpc : p ∈ c.encoded_chunks :=
      mem_sweepChunks_sub chunks
        { c with height_map := aremove c.height_map t } req p hp
    rcases hinv p hpc with h1 | ⟨h2, h3, s, h4, h5⟩
    · exact Or.inl h1
    · by_cases hreq : p.1 ∈ req
      · exact Or.inl hreq
      · have hne : p.2.header.height_created ≠ t := by
          intro he
          rw [he, hb] at h4
          injection h4 with h4
          subst h4
          have hkill := sweepChunks_kill chunks
            { c with height_map := aremove c.height_map t } req p.1 h5 hreq
          rw [alookup_eq_none_iff] at hkill
          exact hkill p.2 hp
        refine Or.inr ⟨by omega, h3, s, ?_, h5⟩
        rw [(sweepChunks_fields chunks _ req).1]
        show alookup (aremove c.height_map t) _ = some s
        rw [alookup_aremove_ne hne]
        exact h4

theorem sweepHeights_range_inv (n : Nat) :
    ∀ (t B : Nat) (c : EncodedChunksCache) (req : List Nat),
    (∀ p, p ∈ c.encoded_chunks →
      p.1 ∈ req ∨
      (t ≤ p.2.header.height_created ∧ p.2.header.height_created ≤ B ∧
       ∃ s, alookup c.height_map p.2.header.height_created = some s ∧
         p.1 ∈ s)) →
    ∀ p, p ∈ (sweepHeights c (List.range' t n) req).encoded_chunks →
      p.1 ∈ req ∨
      (t + n ≤ p.2.header.height_created ∧ p.2.header.height_created ≤ B) := by
  induction n with
  | zero =>
    intro t B c req hinv p hp
    rcases hinv p hp with h1 | ⟨h2, h3, _⟩
    · exact Or.inl h1
    · exact Or.inr ⟨by omega, h3⟩
  | succ m ih =>
    intro t B c req hinv p hp
    rw [List.range'_succ] at hp
    have h2 := ih (t + 1) B (sweepHeight c t req) req
      (sweepHeight_step c t B req hinv) p hp
    rcases h2 with h1 | ⟨h3, h4⟩
    · exact Or.inl h1
    · exact Or.inr ⟨by omega, h4⟩

/-- Whether a chunk hash is registered in the height map at a height. -/
def inHeightBucket (c : EncodedChunksCache) (h ch : Nat) : Bool :=
  match alookup c.height_map h with
  | some s => decide (ch ∈ s)
  | none => false

theorem inHeightBucket_iff (c : EncodedChunksCache) (h ch : Nat) :
    inHeightBucket c h ch = true ↔
      ∃ s, alookup c.height_map h = some s ∧ ch ∈ s := by
  unfold inHeightBucket
  cases hb : alookup c.height_map h with
  | none => simp
  | some s => simp

/-- Fixture for the C1 counterexample: a header far above the horizon. -/
def c1hdr : ShardChunkHeader :=
  { chunk_hash := 21, height_created := 2000, prev_block_hash := 3, shard_id := 0 }

/-- Fixture for the C1 counterexample: the cache obtained by merging an
empty partial chunk with header `c1hdr` into the fresh cache
(`largest_seen_height = 0`). -/
def c1cache : EncodedChunksCache :=
  (EncodedChunksCache.new.merge_in_partial_encoded_chunk
    { header := c1hdr, parts := [], receipts := [] }).1

/-- Counterexample to C1 as stated: from the reachable cache `c1cache`
(entry at height 2000, largest seen height 0), the call
`update_largest_seen_height 10 {}` sweeps only heights in `[0, 0)` — nothing
— so the entry at height 2000 survives although `2000 ∉ [10 − 1024, 10 + 5]`
and its hash is not in `requested`. -/
theorem c1_counterexample :
    ¬ (∀ p, p ∈ (c1cache.update_largest_seen_height 10 []).encoded_chunks →
        (10 - HEIGHT_HORIZON ≤ p.2.header.height_created ∧
         p.2.header.height_created ≤ 10 + MAX_HEIGHTS_AHEAD) ∨
        p.1 ∈ ([] : List Nat)) := by
  decide

/-- C1 amended: if before the call every entry's height lies within the
horizon of the current largest seen height, every entry is registered in the
height map at its creation height, and the new height is not smaller than
the current one, then after `update_largest_seen_height(H', requested)`
every remaining entry has height in `[H' − 1024, H' + 5]` or its chunk hash
is a key of `requested`; no other entry survives the call. -/
theorem c1_update_largest_seen_height_horizon (c : EncodedChunksCache)
    (new_height : Nat) (requested : List Nat)
    (hbounds : ∀ p, p ∈ c.encoded_chunks →
      c.largest_seen_height - HEIGHT_HORIZON ≤ p.2.header.height_created ∧
      p.2.header.height_created ≤ c.largest_seen_height + MAX_HEIGHTS_AHEAD)
    (hindexed : ∀ p, p ∈ c.encoded_chunks →
      inHeightBucket c p.2.header.height_created p.1 = true)
    (hmono : c.largest_seen_height ≤ new_height) :
    ∀ p, p ∈ (c.update_largest_seen_height new_height requested).encoded_chunks →
      (new_height - HEIGHT_HORIZON ≤ p.2.header.height_created ∧
       p.2.header.height_created ≤ new_height + MAX_HEIGHTS_AHEAD) ∨
      p.1 ∈ requested := by
  intro p hp
  unfold EncodedChunksCache.update_largest_seen_height at hp
  have hmain := sweepHeights_range_inv
    ((new_height - HEIGHT_HORIZON) - (c.largest_seen_height - HEIGHT_HORIZON))
    (c.largest_seen_height - HEIGHT_HORIZON)
    (c.largest_seen_height + MAX_HEIGHTS_AHEAD)
    { c with largest_seen_height := new_height } requested
    (fun q hq => Or.inr ⟨(hbounds q hq).1, (hbounds q hq).2,
      (inHeightBucket_iff c q.2.header.height_created q.1).mp (hindexed q hq)⟩)
    p hp
  rcases hmain with h1 | ⟨h2, h3⟩
  · exact Or.inr h1
  · have hsub : c.largest_seen_height - HEIGHT_HORIZON ≤
        new_height - HEIGHT_HORIZON := by omega
    exact Or.inl ⟨by omega, by omega⟩

/-- Fixture for the C1 witness: a header at height 4. -/
def c1whdr : ShardChunkHeader :=
  { chunk_hash := 31, height_created := 4, prev_block_hash := 3, shard_id := 0 }

/-- Fixture for the C1 witness. -/
def c1wcache : EncodedChunksCache :=
  (EncodedChunksCache.new.merge_in_partial_encoded_chunk
    { header := c1whdr, parts := [], receipts := [] }).1

/-- Witness for the amended C1: the entry at height 4 that survives
`update_largest_seen_height 100 {}` is within the new horizon. -/
theorem c1_update_largest_seen_height_horizon_witness :
    (100 - HEIGHT_HORIZON ≤
        (EncodedChunksCacheEntry.from_chunk_header c1whdr).header.height_created ∧
      (EncodedChunksCacheEntry.from_chunk_header c1whdr).header.height_created ≤
        100 + MAX_HEIGHTS_AHEAD) ∨
    (31 : Nat) ∈ ([] : List Nat) :=
  c1_update_largest_seen_height_horizon c1wcache 100 []
    (by decide) (by decide) (by decide)
    (31, EncodedChunksCacheEntry.from_chunk_header c1whdr) (by decide)

/-! ## Claim C2: incomplete_chunks refer to existing incomplete entries -/

theorem alookup_mem {α β : Type} [DecidableEq α] {l : List (α × β)} {k : α}
    {v : β} (h : alookup l k = some v) : (k, v) ∈ l := by
  induction l with
  | nil => simp [alookup] at h
  | cons p rest ih =>
    obtain ⟨a, b⟩ := p
    by_cases hp : a = k
    · subst hp
      simp only [alookup, if_pos rfl] at h
      injection h with h
      subst h
      exact List.mem_cons_self _ _
    · simp only [alookup, if_neg hp] at h
      exact List.mem_cons_of_mem _ (ih h)

theorem mem_lookup_ne_none {α β : Type} [DecidableEq α] {l : List (α × β)}
    {k : α} {v : β} (h : (k, v) ∈ l) : alookup l k ≠ none := by
  intro hnone
  exact (alookup_eq_none_iff.mp hnone) v h

theorem mem_sinsert {s : List Nat} {x ch : Nat} (h : ch ∈ sinsert s x) :
    ch = x ∨ ch ∈ s := by
  unfold sinsert at h
  split_ifs at h with hx
  · exact Or.inr h
  · rcases List.mem_cons.mp h with h1 | h2
    · exact Or.inl h1
    · exact Or.inr h2

theorem self_mem_sinsert (s : List Nat) (x : Nat) : x ∈ sinsert s x := by
  unfold sinsert
  split_ifs with hx
  · exact hx
  · exact List.mem_cons_self _ _

theorem mem_sremove {s : List Nat} {x ch : Nat} (h : ch ∈ sremove s x) :
    ch ∈ s ∧ ch ≠ x := by
  have := List.mem_filter.mp h
  refine ⟨this.1, ?_⟩
  simpa using this.2

/-- The strengthened C2 invariant: every chunk hash in an incomplete bucket
refers to an existing entry that is not complete and whose header's previous
block hash is the bucket's key. -/
def ChunkCacheInv (c : EncodedChunksCache) : Prop :=
  ∀ q, q ∈ c.incomplete_chunks → ∀ ch, ch ∈ q.2 →
    ∃ e, alookup c.encoded_chunks ch = some e ∧ e.complete = false ∧
      e.header.prev_block_hash = q.1

theorem rcfic_inv (c0 : EncodedChunksCache) (prev ch0 : Nat)
    (hA : ∀ q, q ∈ c0.incomplete_chunks → ∀ ch, ch ∈ q.2 → ch ≠ ch0 →
      ∃ e, alookup c0.encoded_chunks ch = some e ∧ e.complete = false ∧
        e.header.prev_block_hash = q.1)
    (hB : ∀ q, q ∈ c0.incomplete_chunks → ch0 ∈ q.2 → q.1 = prev) :
    ChunkCacheInv (c0.remove_chunk_from_incomplete_chunks prev ch0) := by
  intro q hq ch hch
  rw [show (c0.remove_chunk_from_incomplete_chunks prev ch0).encoded_chunks =
    c0.encoded_chunks from (rcfic_fields c0 prev ch0).1]
  unfold EncodedChunksCache.remove_chunk_from_incomplete_chunks at hq
  cases hb : alookup c0.incomplete_chunks prev with
  | none =>
    rw [hb] at hq
    have hne : ch ≠ ch0 := by
      intro he
      subst he
      have hqprev := hB q hq hch
      have : ((prev, q.2) : Nat × List Nat) ∈ c0.incomplete_chunks := by
        rw [← hqprev]
        exact hq
      exact mem_lookup_ne_none this hb
    exact hA q hq ch hch hne
  | some s =>
    rw [hb] at hq
    dsimp only at hq
    split_ifs at hq with hemp
    · have hmem := mem_aremove hq
      have hne : ch ≠ ch0 := by
        intro he
        subst he
        exact hmem.2 (hB q hmem.1 hch)
      exact hA q hmem.1 ch hch hne
    · rcases mem_aupdate hq with h1 | ⟨h2, h3⟩
      · subst h1
        have hchs := mem_sremove hch
        exact hA (prev, s) (alookup_mem hb) ch hchs.1 hchs.2
      · have hne : ch ≠ ch0 := by
          intro he
          subst he
          exact h3 (hB q h2 hch)
        exact hA q h2 ch hch hne

/-- Updating an entry's value without changing its `complete` flag or header
preserves the invariant. -/
theorem inv_aupdate_entry (c : EncodedChunksCache) (ch0 : Nat)
    (e0 e1 : EncodedChunksCacheEntry)
    (hlook : alookup c.encoded_chunks ch0 = some e0)
    (hcomp : e1.complete = e0.complete) (hhdr : e1.header = e0.header)
    (hinv : ChunkCacheInv c) :
    ChunkCacheInv { c with encoded_chunks := aupdate c.encoded_chunks ch0 e1 } := by
  intro q hq ch hch
  obtain ⟨e, he1, he2, he3⟩ := hinv q hq ch hch
  by_cases hc : ch = ch0
  · subst hc
    have : e = e0 := by
      have := he1.symm.trans hlook
      injection this
    refine ⟨e1, ?_, ?_, ?_⟩
    · exact alookup_aupdate_self e1 hlook
    · rw [hcomp, ← this]; exact he2
    · rw [hhdr, ← this]; exact he3
  · exact ⟨e, by rw [alookup_aupdate_ne e1 hc]; exact he1, he2, he3⟩

theorem inv_mark_entry_complete (c : EncodedChunksCache) (ch0 : Nat)
    (hinv : ChunkCacheInv c) :
    ChunkCacheInv (c.mark_entry_complete ch0) := by
  unfold EncodedChunksCache.mark_entry_complete
  cases hb : alookup c.encoded_chunks ch0 with
  | none => exact hinv
  | some e0 =>
    dsimp only
    apply rcfic_inv
    · intro q hq ch hch hne
      obtain ⟨e, he1, he2, he3⟩ := hinv q hq ch hch
      exact ⟨e, by
        show alookup (aupdate c.encoded_chunks ch0 _) ch = some e
        rw [alookup_aupdate_ne _ hne]; exact he1, he2, he3⟩
    · intro q hq hch
      obtain ⟨e, he1, _, he3⟩ := hinv q hq ch0 hch
      have : e = e0 := by
        have := he1.symm.trans hb
        injection this
      rw [← he3, this]

theorem inv_mark_entry_validated (c : EncodedChunksCache) (ch0 : Nat)
    (hinv : ChunkCacheInv c) :
    ChunkCacheInv (c.mark_entry_validated ch0) := by
  unfold EncodedChunksCache.mark_entry_validated
  cases hb : alookup c.encoded_chunks ch0 with
  | none => exact hinv
  | some e0 =>
    dsimp only
    exact inv_aupdate_entry c ch0 e0 _ hb rfl rfl hinv

theorem inv_remove (c : EncodedChunksCache) (ch0 : Nat)
    (hinv : ChunkCacheInv c) :
    ChunkCacheInv (c.remove ch0).1 := by
  unfold EncodedChunksCache.remove
  cases hb : alookup c.encoded_chunks ch0 with
  | none => exact hinv
  | some e0 =>
    dsimp only
    apply rcfic_inv
    · intro q hq ch hch hne
      obtain ⟨e, he1, he2, he3⟩ := hinv q hq ch hch
      exact ⟨e, by
        show alookup (aremove c.encoded_chunks ch0) ch = some e
        rw [alookup_aremove_ne hne]; exact he1, he2, he3⟩
    · intro q hq hch
      obtain ⟨e, he1, _, he3⟩ := hinv q hq ch0 hch
      have : e = e0 := by
        have := he1.symm.trans hb
        injection this
      rw [← he3, this]

theorem inv_get_or_insert (c : EncodedChunksCache) (hd : ShardChunkHeader)
    (hinv : ChunkCacheInv c) :
    ChunkCacheInv (c.get_or_insert_from_header hd) := by
  unfold EncodedChunksCache.get_or_insert_from_header
  cases hb : alookup c.encoded_chunks hd.chunk_hash with
  | some e => exact hinv
  | none =>
    dsimp only
    have hfresh : ∀ ch2 e2, alookup c.encoded_chunks ch2 = some e2 →
        hd.chunk_hash ≠ ch2 := by
      intro ch2 e2 h he
      rw [← he] at h
      rw [hb] at h
      exact absurd h (by simp)
    intro q hq ch hch
    unfold bucketInsert at hq
    cases hb2 : alookup c.incomplete_chunks hd.prev_block_hash with
    | some s =>
      rw [hb2] at hq
      rcases mem_aupdate hq with h1 | ⟨h2, h3⟩
      · subst h1
        rcases mem_sinsert hch with h4 | h5
        · subst h4
          exact ⟨EncodedChunksCacheEntry.from_chunk_header hd,
            by simp [alookup], rfl, rfl⟩
        · obtain ⟨e, he1, he2, he3⟩ :=
            hinv (hd.prev_block_hash, s) (alookup_mem hb2) ch h5
          exact ⟨e, by simpa [alookup, hfresh ch e he1] using he1, he2, he3⟩
      · obtain ⟨e, he1, he2, he3⟩ := hinv q h2 ch hch
        exact ⟨e, by simpa [alookup, hfresh ch e he1] using he1, he2, he3⟩
    | none =>
      rw [hb2] at hq
      rcases List.mem_cons.mp hq with h1 | h2
      · subst h1
        have hc : ch = hd.chunk_hash := by simpa using hch
        subst hc
        exact ⟨EncodedChunksCacheEntry.from_chunk_header hd,
          by simp [alookup], rfl, rfl⟩
      · obtain ⟨e, he1, he2, he3⟩ := hinv q h2 ch hch
        exact ⟨e, by simpa [alookup, hfresh ch e he1] using he1, he2, he3⟩

theorem inv_merge (c : EncodedChunksCache) (pc : PartialEncodedChunkV2)
    (hinv : ChunkCacheInv c) :
    ChunkCacheInv (c.merge_in_partial_encoded_chunk pc).1 := by
  unfold EncodedChunksCache.merge_in_partial_encoded_chunk
  dsimp only
  have h2 := inv_get_or_insert c pc.header hinv
  cases hb : alookup (c.get_or_insert_from_header pc.header).encoded_chunks
      pc.header.chunk_hash with
  | none => exact h2
  | some e =>
    dsimp only
    exact inv_aupdate_entry _ _ e _ hb rfl rfl h2

theorem inv_remove_chunk_header (c : EncodedChunksCache)
    (hd : ShardChunkHeader) (hinv : ChunkCacheInv c) :
    ChunkCacheInv (c.remove_chunk_header hd) := by
  intro q hq ch hch
  rw [(remove_chunk_header_fields c hd).1]
  rw [(remove_chunk_header_fields c hd).2.2.1] at hq
  exact hinv q hq ch hch

theorem inv_sweepChunks (l : List Nat) :
    ∀ (c : EncodedChunksCache) (req : List Nat), ChunkCacheInv c →
    ChunkCacheInv (sweepChunks c l req) := by
  induction l with
  | nil => intro c req hinv; exact hinv
  | cons x rest ih =>
    intro c req hinv
    unfold sweepChunks
    split_ifs with hx
    · exact ih c req hinv
    · cases hrem : c.remove x with
    | mk c2 o =>
      have hc2 : ChunkCacheInv c2 := by
        have := inv_remove c x hinv
        rw [hrem] at this
        exact this
      cases o with
      | some e =>
        dsimp only
        exact ih _ req (inv_remove_chunk_header c2 e.header hc2)
      | none =>
        dsimp only
        exact ih _ req hc2

theorem inv_sweepHeight (c : EncodedChunksCache) (t : Nat) (req : List Nat)
    (hinv : ChunkCacheInv c) : ChunkCacheInv (sweepHeight c t req) := by
  unfold sweepHeight
  cases hb : alookup c.height_map t with
  | none => exact hinv
  | some chunks =>
    dsimp only
    exact inv_sweepChunks chunks _ req hinv

theorem inv_sweepHeights (hs : List Nat) :
    ∀ (c : EncodedChunksCache) (req : List Nat), ChunkCacheInv c →
    ChunkCacheInv (sweepHeights c hs req) := by
  induction hs with
  | nil => intro c req hinv; exact hinv
  | cons t rest ih =>
    intro c req hinv
    exact ih _ req (inv_sweepHeight c t req hinv)

theorem inv_update_largest_seen_height (c : EncodedChunksCache)
    (new_height : Nat) (req : List Nat) (hinv : ChunkCacheInv c) :
    ChunkCacheInv (c.update_largest_seen_height new_height req) := by
  unfold EncodedChunksCache.update_largest_seen_height
  exact inv_sweepHeights _ _ req hinv

theorem inv_insert_chunk_header (c : EncodedChunksCache) (sid : Nat)
    (hd : ShardChunkHeader) (producer now : Nat) (hinv : ChunkCacheInv c) :
    ChunkCacheInv (c.insert_chunk_header sid hd producer now) := by
  unfold EncodedChunksCache.insert_chunk_header
  dsimp only
  split_ifs with h1
  · cases alookup c.block_hash_to_chunk_headers hd.prev_block_hash with
    | some m => exact hinv
    | none => exact hinv
  · exact hinv

theorem applyOp_inv (c : EncodedChunksCache) (op : CacheOp)
    (hinv : ChunkCacheInv c) : ChunkCacheInv (applyOp c op) := by
  cases op with
  | merge pc => exact inv_merge c pc hinv
  | markComplete ch => exact inv_mark_entry_complete c ch hinv
  | markValidated ch => exact inv_mark_entry_validated c ch hinv
  | removeChunk ch => exact inv_remove c ch hinv
  | updateHeight nh req => exact inv_update_largest_seen_height c nh req hinv
  | insertHeader sid hd producer now =>
    exact inv_insert_chunk_header c sid hd producer now hinv

theorem applyOps_inv (ops : List CacheOp) :
    ∀ (c : EncodedChunksCache), ChunkCacheInv c →
    ChunkCacheInv (applyOps c ops) := by
  induction ops with
  | nil => intro c hinv; exact hinv
  | cons op rest ih =>
    intro c hinv
    exact ih _ (applyOp_inv c op hinv)

/-- C2: for every cache reachable from the empty cache by any sequence of
the public operations, every chunk hash contained in any bucket of
`incomplete_chunks` refers to an existing entry of `encoded_chunks` whose
`complete` field is false — in particular no entry with `complete = true` is
referenced from `incomplete_chunks`. -/
theorem c2_incomplete_refers_incomplete (ops : List CacheOp) :
    ∀ q, q ∈ (applyOps EncodedChunksCache.new ops).incomplete_chunks →
    ∀ ch, ch ∈ q.2 →
    ∃ e, alookup (applyOps EncodedChunksCache.new ops).encoded_chunks ch =
        some e ∧ e.complete = false := by
  have hinv : ChunkCacheInv (applyOps EncodedChunksCache.new ops) :=
    applyOps_inv ops EncodedChunksCache.new (by
      intro q hq
      exact absurd hq (List.not_mem_nil q))
  intro q hq ch hch
  obtain ⟨e, h1, h2, _⟩ := hinv q hq ch hch
  exact ⟨e, h1, h2⟩

/-- Witness for C2: after merging one empty partial chunk, the hash in the
single incomplete bucket refers to an existing incomplete entry. -/
theorem c2_incomplete_refers_incomplete_witness :
    ∃ e, alookup
        (applyOps EncodedChunksCache.new
          [CacheOp.merge { header := c1whdr, parts := [], receipts := [] }]).encoded_chunks
        31 = some e ∧ e.complete = false :=
  c2_incomplete_refers_incomplete
    [CacheOp.merge { header := c1whdr, parts := [], receipts := [] }]
    (3, [31]) (by decide) 31 (by decide)

/-! ## Claim C3: merge returns exactly the previously missing part ords -/

/-- The part ords presented by a partial encoded chunk. -/
def ordsOf (pc : PartialEncodedChunkV2) : List Nat :=
  pc.parts.map (fun p => p.part_ord)

/-- Whether the cache holds a part with the given ord for the given chunk. -/
def cacheHasOrd (c : EncodedChunksCache) (h o : Nat) : Bool :=
  match alookup c.encoded_chunks h with
  | some e => (alookup e.parts o).isSome
  | none => false

/-- A sequence of `merge_in_partial_encoded_chunk` calls, collecting the
returned part-ord sets. -/
def runMerges (c : EncodedChunksCache) :
    List PartialEncodedChunkV2 → EncodedChunksCache × List (List Nat)
  | [] => (c, [])
  | pc :: rest =>
    let r := c.merge_in_partial_encoded_chunk pc
    let r2 := runMerges r.1 rest
    (r2.1, r.2 :: r2.2)

theorem mergeParts_ret (l : List PartialEncodedChunkPart) :
    ∀ (ps : List (Nat × PartialEncodedChunkPart)) (o : Nat),
    o ∈ (mergeParts ps l).2 ↔
      (o ∈ l.map (fun p => p.part_ord) ∧ alookup ps o = none) := by
  induction l with
  | nil =>
    intro ps o
    simp [mergeParts]
  | cons p rest ih =>
    intro ps o
    unfold mergeParts
    cases hb : alookup ps p.part_ord with
    | some w =>
      dsimp only
      rw [ih ps o]
      simp only [List.map_cons, List.mem_cons]
      constructor
      · rintro ⟨h1, h2⟩
        exact ⟨Or.inr h1, h2⟩
      · rintro ⟨h1 | h1, h2⟩
        · rw [h1, hb] at h2
          exact absurd h2 (by simp)
        · exact ⟨h1, h2⟩
    | none =>
      dsimp only
      simp only [List.map_cons, List.mem_cons]
      constructor
      · rintro (h1 | h1)
        · exact ⟨Or.inl h1, h1 ▸ hb⟩
        · rw [ih] at h1
          obtain ⟨h2, h3⟩ := h1
          have hne : ¬ p.part_ord = o := by
            intro he
            simp [alookup, he] at h3
          simp only [alookup, if_neg hne] at h3
          exact ⟨Or.inr h2, h3⟩
      · rintro ⟨h1 | h1, h2⟩
        · exact Or.inl h1
        · by_cases ho : o = p.part_ord
          · exact Or.inl ho
          · right
            rw [ih]
            refine ⟨h1, ?_⟩
            simp only [alookup, if_neg (fun he => ho (Eq.symm he))]
            exact h2

theorem mergeParts_domain (l : List PartialEncodedChunkPart) :
    ∀ (ps : List (Nat × PartialEncodedChunkPart)) (o : Nat),
    (alookup (mergeParts ps l).1 o).isSome = true ↔
      ((alookup ps o).isSome = true ∨ o ∈ l.map (fun p => p.part_ord)) := by
  induction l with
  | nil =>
    intro ps o
    simp [mergeParts]
  | cons p rest ih =>
    intro ps o
    unfold mergeParts
    cases hb : alookup ps p.part_ord with
    | some w =>
      dsimp only
      rw [ih]
      simp only [List.map_cons, List.mem_cons]
      constructor
      · rintro (h | h)
        · exact Or.inl h
        · exact Or.inr (Or.inr h)
      · rintro (h | h | h)
        · exact Or.inl h
        · refine Or.inl ?_
          rw [h, hb]
          rfl
        · exact Or.inr h
    | none =>
      dsimp only
      rw [ih]
      simp only [List.map_cons, List.mem_cons]
      constructor
      · rintro (h | h)
        · by_cases ho : p.part_ord = o
          · exact Or.inr (Or.inl ho.symm)
          · simp only [alookup, if_neg ho] at h
            exact Or.inl h
        · exact Or.inr (Or.inr h)
      · rintro (h | h | h)
        · refine Or.inl ?_
          by_cases ho : p.part_ord = o
          · simp [alookup, ho]
          · simp only [alookup, if_neg ho]
            exact h
        · refine Or.inl ?_
          rw [h]
          simp [alookup]
        · exact Or.inr h

theorem isSome_eq_false_iff {β : Type} (x : Option β) :
    x.isSome = false ↔ x = none := by
  cases x <;> simp

theorem merge_spec (c : EncodedChunksCache) (pc : PartialEncodedChunkV2) :
    (∀ o, o ∈ (c.merge_in_partial_encoded_chunk pc).2 ↔
      (o ∈ ordsOf pc ∧ cacheHasOrd c pc.header.chunk_hash o = false)) ∧
    (∀ o, cacheHasOrd (c.merge_in_partial_encoded_chunk pc).1
        pc.header.chunk_hash o = true ↔
      (cacheHasOrd c pc.header.chunk_hash o = true ∨ o ∈ ordsOf pc)) := by
  cases hb : alookup c.encoded_chunks pc.header.chunk_hash with
  | some e =>
    have hgoi : c.get_or_insert_from_header pc.header = c := by
      unfold EncodedChunksCache.get_or_insert_from_header
      rw [hb]
    have hmerge : c.merge_in_partial_encoded_chunk pc =
        ({ c with
            encoded_chunks := aupdate c.encoded_chunks pc.header.chunk_hash
              (e.merge_in_partial_encoded_chunk pc).1 },
         (e.merge_in_partial_encoded_chunk pc).2) := by
      unfold EncodedChunksCache.merge_in_partial_encoded_chunk
      dsimp only
      rw [hgoi, hb]
    constructor
    · intro o
      rw [hmerge]
      show o ∈ (mergeParts e.parts pc.parts).2 ↔ _
      rw [mergeParts_ret]
      unfold cacheHasOrd
      rw [hb]
      rw [isSome_eq_false_iff]
      exact Iff.rfl
    · intro o
      rw [hmerge]
      unfold cacheHasOrd
      dsimp only
      rw [alookup_aupdate_self _ hb, hb]
      show (alookup (mergeParts e.parts pc.parts).1 o).isSome = true ↔ _
      rw [mergeParts_domain]
      dsimp only
      exact Iff.rfl
  | none =>
    have hgoi : c.get_or_insert_from_header pc.header =
        { c with
          encoded_chunks := (pc.header.chunk_hash,
            EncodedChunksCacheEntry.from_chunk_header pc.header) ::
              c.encoded_chunks
          height_map := bucketInsert c.height_map pc.header.height_created
            pc.header.chunk_hash
          incomplete_chunks := bucketInsert c.incomplete_chunks
            pc.header.prev_block_hash pc.header.chunk_hash } := by
      unfold EncodedChunksCache.get_or_insert_from_header
      rw [hb]
    have hlook2 : alookup (c.get_or_insert_from_header pc.header).encoded_chunks
        pc.header.chunk_hash =
        some (EncodedChunksCacheEntry.from_chunk_header pc.header) := by
      rw [hgoi]
      simp [alookup]
    have hmerge : c.merge_in_partial_encoded_chunk pc =
        ({ c.get_or_insert_from_header pc.header with
            encoded_chunks :=
              aupdate (c.get_or_insert_from_header pc.header).encoded_chunks
                pc.header.chunk_hash
                ((EncodedChunksCacheEntry.from_chunk_header
                  pc.header).merge_in_partial_encoded_chunk pc).1 },
         ((EncodedChunksCacheEntry.from_chunk_header
            pc.header).merge_in_partial_encoded_chunk pc).2) := by
      unfold EncodedChunksCache.merge_in_partial_encoded_chunk
      dsimp only
      rw [hlook2]
    constructor
    · intro o
      rw [hmerge]
      show o ∈ (mergeParts [] pc.parts).2 ↔ _
      rw [mergeParts_ret]
      unfold cacheHasOrd
      rw [hb]
      simp [alookup, ordsOf]
    · intro o
      rw [hmerge]
      unfold cacheHasOrd
      dsimp only
      rw [alookup_aupdate_self _ hlook2, hb]
      show (alookup (mergeParts [] pc.parts).1 o).isSome = true ↔ _
      rw [mergeParts_domain]
      simp [alookup, ordsOf]

/-- The default partial chunk used with `List.getD`. -/
def dummyPC (hdr : ShardChunkHeader) : PartialEncodedChunkV2 :=
  { header := hdr, parts := [], receipts := [] }

theorem runMerges_length (pcs : List PartialEncodedChunkV2) :
    ∀ c : EncodedChunksCache, (runMerges c pcs).2.length = pcs.length := by
  induction pcs with
  | nil => intro c; rfl
  | cons pc rest ih =>
    intro c
    show ((c.merge_in_partial_encoded_chunk pc).2 ::
      (runMerges (c.merge_in_partial_encoded_chunk pc).1 rest).2).length = _
    rw [List.length_cons, ih]
    rfl

theorem runMerges_ret_spec (hdr : ShardChunkHeader)
    (pcs : List PartialEncodedChunkV2) :
    ∀ c : EncodedChunksCache, (∀ pc ∈ pcs, pc.header = hdr) →
    ∀ i, i < pcs.length → ∀ o,
    o ∈ (runMerges c pcs).2.getD i [] ↔
      (o ∈ ordsOf (pcs.getD i (dummyPC hdr)) ∧
       cacheHasOrd (runMerges c (pcs.take i)).1 hdr.chunk_hash o = false) := by
  induction pcs with
  | nil =>
    intro c hall i hi
    exact absurd hi (by simp)
  | cons pc rest ih =>
    intro c hall i hi o
    have hhd : pc.header = hdr := hall pc (List.mem_cons_self _ _)
    cases i with
    | zero =>
      show o ∈ (c.merge_in_partial_encoded_chunk pc).2 ↔ _
      have := (merge_spec c pc).1 o
      rw [hhd] at this
      exact this
    | succ i2 =>
      show o ∈ (runMerges (c.merge_in_partial_encoded_chunk pc).1 rest).2.getD i2 [] ↔ _
      have hi2 : i2 < rest.length := by
        simpa using Nat.lt_of_succ_lt_succ hi
      exact ih (c.merge_in_partial_encoded_chunk pc).1
        (fun q hq => hall q (List.mem_cons_of_mem _ hq)) i2 hi2 o

theorem cacheHasOrd_merge_mono (hdr : ShardChunkHeader)
    (c : EncodedChunksCache) (pc : PartialEncodedChunkV2) (o : Nat)
    (hhd : pc.header = hdr)
    (h : cacheHasOrd c hdr.chunk_hash o = true) :
    cacheHasOrd (c.merge_in_partial_encoded_chunk pc).1 hdr.chunk_hash o = true := by
  have := (merge_spec c pc).2 o
  rw [hhd] at this
  exact this.mpr (Or.inl h)

theorem cacheHasOrd_merge_of_mem (hdr : ShardChunkHeader)
    (c : EncodedChunksCache) (pc : PartialEncodedChunkV2) (o : Nat)
    (hhd : pc.header = hdr) (h : o ∈ ordsOf pc) :
    cacheHasOrd (c.merge_in_partial_encoded_chunk pc).1 hdr.chunk_hash o = true := by
  have := (merge_spec c pc).2 o
  rw [hhd] at this
  exact this.mpr (Or.inr h)

theorem cacheHasOrd_run_mono (hdr : ShardChunkHeader)
    (pcs : List PartialEncodedChunkV2) :
    ∀ (c : EncodedChunksCache) (o : Nat), (∀ pc ∈ pcs, pc.header = hdr) →
    cacheHasOrd c hdr.chunk_hash o = true →
    cacheHasOrd (runMerges c pcs).1 hdr.chunk_hash o = true := by
  induction pcs with
  | nil => intro c o hall h; exact h
  | cons pc rest ih =>
    intro c o hall h
    show cacheHasOrd (runMerges (c.merge_in_partial_encoded_chunk pc).1 rest).1
      hdr.chunk_hash o = true
    exact ih _ o (fun q hq => hall q (List.mem_cons_of_mem _ hq))
      (cacheHasOrd_merge_mono hdr c pc o (hall pc (List.mem_cons_self _ _)) h)

theorem cacheHasOrd_true_no_ret (hdr : ShardChunkHeader)
    (pcs : List PartialEncodedChunkV2) :
    ∀ (c : EncodedChunksCache) (o : Nat), (∀ pc ∈ pcs, pc.header = hdr) →
    cacheHasOrd c hdr.chunk_hash o = true →
    ∀ i, i < pcs.length → o ∉ (runMerges c pcs).2.getD i [] := by
  induction pcs with
  | nil =>
    intro c o hall h i hi
    exact absurd hi (by simp)
  | cons pc rest ih =>
    intro c o hall h i hi
    have hhd : pc.header = hdr := hall pc (List.mem_cons_self _ _)
    cases i with
    | zero =>
      show o ∉ (c.merge_in_partial_encoded_chunk pc).2
      intro hmem
      have := ((merge_spec c pc).1 o).mp hmem
      rw [hhd] at this
      rw [this.2] at h
      exact absurd h (by simp)
    | succ i2 =>
      show o ∉ (runMerges (c.merge_in_partial_encoded_chunk pc).1 rest).2.getD i2 []
      have hi2 : i2 < rest.length := by
        simpa using Nat.lt_of_succ_lt_succ hi
      exact ih _ o (fun q hq => hall q (List.mem_cons_of_mem _ hq))
        (cacheHasOrd_merge_mono hdr c pc o hhd h) i2 hi2

theorem bool_false_iff_not_true (b : Bool) : (b = false) ↔ ¬ (b = true) := by
  cases b <;> simp

theorem runMerges_union (hdr : ShardChunkHeader)
    (pcs : List PartialEncodedChunkV2) :
    ∀ (c : EncodedChunksCache) (o : Nat), (∀ pc ∈ pcs, pc.header = hdr) →
    ((∃ i, i < pcs.length ∧ o ∈ (runMerges c pcs).2.getD i []) ↔
      (cacheHasOrd c hdr.chunk_hash o = false ∧
       ∃ i, i < pcs.length ∧ o ∈ ordsOf (pcs.getD i (dummyPC hdr)))) := by
  induction pcs with
  | nil =>
    intro c o hall
    simp
  | cons pc rest ih =>
    intro c o hall
    have hhd : pc.header = hdr := hall pc (List.mem_cons_self _ _)
    have hallr : ∀ q ∈ rest, q.header = hdr :=
      fun q hq => hall q (List.mem_cons_of_mem _ hq)
    constructor
    · rintro ⟨i, hi, hmem⟩
      cases i with
      | zero =>
        have hspec := ((merge_spec c pc).1 o).mp hmem
        rw [hhd] at hspec
        exact ⟨hspec.2, 0, by simp, hspec.1⟩
      | succ j =>
        have hj : j < rest.length := by
          simpa using Nat.lt_of_succ_lt_succ hi
        have hres := (ih (c.merge_in_partial_encoded_chunk pc).1 o hallr).mp
          ⟨j, hj, hmem⟩
        obtain ⟨hD, i2, hi2, hords⟩ := hres
        have hD2 := (bool_false_iff_not_true _).mp hD
        have hiff := (merge_spec c pc).2 o
        rw [hhd] at hiff
        have hDc : cacheHasOrd c hdr.chunk_hash o = false := by
          rw [bool_false_iff_not_true]
          intro hA
          exact hD2 (hiff.mpr (Or.inl hA))
        exact ⟨hDc, i2 + 1, by simpa using Nat.succ_lt_succ hi2, hords⟩
    · rintro ⟨hDc, i, hi, hords⟩
      cases i with
      | zero =>
        have hspec := (merge_spec c pc).1 o
        rw [hhd] at hspec
        exact ⟨0, by simp, hspec.mpr ⟨hords, hDc⟩⟩
      | succ j =>
        have hj : j < rest.length := by
          simpa using Nat.lt_of_succ_lt_succ hi
        by_cases h0 : o ∈ ordsOf pc
        · have hspec := (merge_spec c pc).1 o
          rw [hhd] at hspec
          exact ⟨0, by simp, hspec.mpr ⟨h0, hDc⟩⟩
        · have hiff := (merge_spec c pc).2 o
          rw [hhd] at hiff
          have hDc2 : cacheHasOrd (c.merge_in_partial_encoded_chunk pc).1
              hdr.chunk_hash o = false := by
            rw [bool_false_iff_not_true]
            intro hA
            rcases hiff.mp hA with h | h
            · rw [h] at hDc
              exact absurd hDc (by simp)
            · exact h0 h
          have hres := (ih (c.merge_in_partial_encoded_chunk pc).1 o hallr).mpr
            ⟨hDc2, j, hj, hords⟩
          obtain ⟨j2, hj2, hm⟩ := hres
          exact ⟨j2 + 1, by simpa using Nat.succ_lt_succ hj2, hm⟩

theorem runMerges_at_most_once (hdr : ShardChunkHeader)
    (pcs : List PartialEncodedChunkV2) :
    ∀ (c : EncodedChunksCache), (∀ pc ∈ pcs, pc.header = hdr) →
    ∀ i j, i < j → j < pcs.length → ∀ o,
    o ∈ (runMerges c pcs).2.getD i [] →
    o ∉ (runMerges c pcs).2.getD j [] := by
  induction pcs with
  | nil =>
    intro c hall i j hij hj
    exact absurd hj (by simp)
  | cons pc rest ih =>
    intro c hall i j hij hj o hmem
    have hhd : pc.header = hdr := hall pc (List.mem_cons_self _ _)
    have hallr : ∀ q ∈ rest, q.header = hdr :=
      fun q hq => hall q (List.mem_cons_of_mem _ hq)
    cases i with
    | zero =>
      have hspec := ((merge_spec c pc).1 o).mp hmem
      rw [hhd] at hspec
      have hD := cacheHasOrd_merge_of_mem hdr c pc o hhd hspec.1
      cases j with
      | zero => exact absurd hij (by simp)
      | succ j2 =>
        have hj2 : j2 < rest.length := by
          simpa using Nat.lt_of_succ_lt_succ hj
        exact cacheHasOrd_true_no_ret hdr rest _ o hallr hD j2 hj2
    | succ i2 =>
      cases j with
      | zero => exact absurd hij (by omega)
      | succ j2 =>
        exact ih _ hallr i2 j2 (by omega)
          (by simpa using Nat.lt_of_succ_lt_succ hj) o hmem

theorem runMerges_presented_domain (hdr : ShardChunkHeader)
    (pcs : List PartialEncodedChunkV2) :
    ∀ (c : EncodedChunksCache) (o : Nat), (∀ pc ∈ pcs, pc.header = hdr) →
    (∃ i, i < pcs.length ∧ o ∈ ordsOf (pcs.getD i (dummyPC hdr))) →
    cacheHasOrd (runMerges c pcs).1 hdr.chunk_hash o = true := by
  induction pcs with
  | nil =>
    rintro c o hall ⟨i, hi, _⟩
    exact absurd hi (by simp)
  | cons pc rest ih =>
    rintro c o hall ⟨i, hi, hords⟩
    have hhd : pc.header = hdr := hall pc (List.mem_cons_self _ _)
    have hallr : ∀ q ∈ rest, q.header = hdr :=
      fun q hq => hall q (List.mem_cons_of_mem _ hq)
    cases i with
    | zero =>
      exact cacheHasOrd_run_mono hdr rest _ o hallr
        (cacheHasOrd_merge_of_mem hdr c pc o hhd hords)
    | succ i2 =>
      exact ih _ o hallr ⟨i2, by simpa using Nat.lt_of_succ_lt_succ hi, hords⟩

theorem runMerges_repeat_empty (hdr : ShardChunkHeader)
    (pcs : List PartialEncodedChunkV2) (c : EncodedChunksCache)
    (hall : ∀ pc ∈ pcs, pc.header = hdr) (pc : PartialEncodedChunkV2)
    (hpc : pc ∈ pcs) :
    ((runMerges c pcs).1.merge_in_partial_encoded_chunk pc).2 = [] := by
  have hhd : pc.header = hdr := hall pc hpc
  rw [List.eq_nil_iff_forall_not_mem]
  intro o hmem
  have hspec := ((merge_spec _ pc).1 o).mp hmem
  rw [hhd] at hspec
  obtain ⟨⟨n, hn⟩, hget⟩ := List.mem_iff_get.mp hpc
  have hD := runMerges_presented_domain hdr pcs c o hall
    ⟨n, hn, by
      rw [List.getD_eq_getElem pcs (dummyPC hdr) hn]
      have : pcs[n] = pc := hget
      rw [this]
      exact hspec.1⟩
  rw [hspec.2] at hD
  exact absurd hD (by simp)

/-- C3: starting from a cache with no entry for the header's chunk hash, for
every sequence of `merge_in_partial_encoded_chunk` calls carrying partial
chunks with that same header (and no intervening removal — only merges are
performed): each call returns exactly the part ords presented by that call
and not present in the entry before the call; the union of the returned sets
equals the set of distinct part ords presented over the sequence; each part
ord is returned by at most one call; and repeating any of the calls again
afterwards returns the empty set. -/
theorem c3_merge_returns_missing (c : EncodedChunksCache)
    (hdr : ShardChunkHeader) (pcs : List PartialEncodedChunkV2)
    (hfresh : alookup c.encoded_chunks hdr.chunk_hash = none)
    (hall : ∀ pc ∈ pcs, pc.header = hdr) :
    ((runMerges c pcs).2.length = pcs.length) ∧
    (∀ i, i < pcs.length → ∀ o,
      o ∈ (runMerges c pcs).2.getD i [] ↔
        (o ∈ ordsOf (pcs.getD i (dummyPC hdr)) ∧
         cacheHasOrd (runMerges c (pcs.take i)).1 hdr.chunk_hash o = false)) ∧
    (∀ o, (∃ i, i < pcs.length ∧ o ∈ (runMerges c pcs).2.getD i []) ↔
      (∃ i, i < pcs.length ∧ o ∈ ordsOf (pcs.getD i (dummyPC hdr)))) ∧
    (∀ i j, i < j → j < pcs.length → ∀ o,
      o ∈ (runMerges c pcs).2.getD i [] →
      o ∉ (runMerges c pcs).2.getD j []) ∧
    (∀ pc, pc ∈ pcs →
      ((runMerges c pcs).1.merge_in_partial_encoded_chunk pc).2 = []) := by
  refine ⟨runMerges_length pcs c, runMerges_ret_spec hdr pcs c hall, ?_,
    runMerges_at_most_once hdr pcs c hall,
    fun pc hpc => runMerges_repeat_empty hdr pcs c hall pc hpc⟩
  intro o
  rw [runMerges_union hdr pcs c o hall]
  have hD : cacheHasOrd c hdr.chunk_hash o = false := by
    unfold cacheHasOrd
    rw [hfresh]
  simp [hD]

/-- Header for the C3 witness. -/
def c3hdr : ShardChunkHeader :=
  { chunk_hash := 41, height_created := 1, prev_block_hash := 0, shard_id := 0 }

/-- Partial chunks for the C3 witness: ords `{1, 2}` then `{2, 3}`. -/
def c3pcs : List PartialEncodedChunkV2 :=
  [{ header := c3hdr,
     parts := [{ part_ord := 1, part_data := 10 },
               { part_ord := 2, part_data := 20 }],
     receipts := [] },
   { header := c3hdr,
     parts := [{ part_ord := 2, part_data := 99 },
               { part_ord := 3, part_data := 30 }],
     receipts := [] }]

/-- Witness for C3 on a concrete two-merge sequence. -/
theorem c3_merge_returns_missing_witness :
    (runMerges EncodedChunksCache.new c3pcs).2.length = c3pcs.length :=
  (c3_merge_returns_missing EncodedChunksCache.new c3hdr c3pcs rfl
    (by decide)).1
